import Mathlib

/- Verification of the cache package of the goutils repository: two bounded
key/value caches (a least-recently-used and a least-recently-written
variant) share a recency index implemented as a doubly linked list whose
nodes live inline in a map from keys to neighbour records.

The Go maps are modelled as association lists with Go's read / write /
delete semantics; Go's `time.Time` and `time.Duration` are modelled as
`Int` (nanosecond counts); the zero value of a key type is modelled as
`default` of an `Inhabited` instance. -/

namespace Goutils

/- Model of a Go `map[K]V`: an association list `List (K × V)`.
`GoMap.find?` is the comma-ok read, `GoMap.insert` is `m[k] = v`,
`GoMap.erase` is `delete(m, k)`, `GoMap.size` is `len(m)`. -/

namespace GoMap

variable {K V : Type} [DecidableEq K]

/-- Go map read: `v, ok := m[k]` as an option. -/
def find? : List (K × V) → K → Option V
  | [], _ => none
  | (k0, v0) :: rest, k => if k = k0 then some v0 else find? rest k

/-- Go map write `m[k] = v`: replace the binding in place, or append. -/
def insert : List (K × V) → K → V → List (K × V)
  | [], k, v => [(k, v)]
  | (k0, v0) :: rest, k, v =>
      if k = k0 then (k, v) :: rest else (k0, v0) :: insert rest k v

/-- Go `delete(m, k)`. -/
def erase : List (K × V) → K → List (K × V)
  | [], _ => []
  | (k0, v0) :: rest, k =>
      if k0 = k then erase rest k else (k0, v0) :: erase rest k

/-- Go `len(m)`. -/
def size (m : List (K × V)) : Nat := m.length

/-- Go zero-value read `m[k]` (missing keys give the zero value). -/
def get [Inhabited V] (m : List (K × V)) (k : K) : V := (find? m k).getD default

/-- The keys of the association list, in storage order. -/
def keyList (m : List (K × V)) : List K := m.map Prod.fst

/-- Well-formedness: no key is bound twice. Every map reachable from the
empty map through `insert` and `erase` satisfies this. -/
def WF (m : List (K × V)) : Prop := (keyList m).Nodup

theorem find?_insert_self (m : List (K × V)) (k : K) (v : V) :
    find? (insert m k v) k = some v := by
  induction m with
  | nil => simp [insert, find?]
  | cons p rest ih =>
    obtain ⟨k0, v0⟩ := p
    by_cases h : k = k0
    · simp [insert, h, find?]
    · simp [insert, h, find?, ih]

theorem find?_insert_ne (m : List (K × V)) (k k2 : K) (v : V) (h : k2 ≠ k) :
    find? (insert m k v) k2 = find? m k2 := by
  induction m with
  | nil => simp [insert, find?, h]
  | cons p rest ih =>
    obtain ⟨k0, v0⟩ := p
    by_cases hk : k = k0
    · subst hk
      simp [insert, find?, h, ih]
    · by_cases hk2 : k2 = k0
      · simp [insert, find?, hk, hk2]
      · simp [insert, find?, hk, hk2, ih]

theorem find?_erase_self (m : List (K × V)) (k : K) :
    find? (erase m k) k = none := by
  induction m with
  | nil => rfl
  | cons p rest ih =>
    obtain ⟨k0, v0⟩ := p
    by_cases h : k0 = k
    · simp [erase, h, ih]
    · have h2 : k ≠ k0 := fun hh => h hh.symm
      simp [erase, h, find?, h2, ih]

theorem find?_erase_ne (m : List (K × V)) (k k2 : K) (h : k2 ≠ k) :
    find? (erase m k) k2 = find? m k2 := by
  induction m with
  | nil => rfl
  | cons p rest ih =>
    obtain ⟨k0, v0⟩ := p
    by_cases hk : k0 = k
    · subst hk
      simp [erase, find?, fun hh => h hh, ih]
    · by_cases hk2 : k2 = k0
      · simp [erase, hk, find?, hk2]
      · simp [erase, hk, find?, hk2, ih]

theorem isSome_find?_iff_mem_keyList (m : List (K × V)) (k : K) :
    (find? m k).isSome ↔ k ∈ keyList m := by
  induction m with
  | nil => simp [find?, keyList]
  | cons p rest ih =>
    obtain ⟨k0, v0⟩ := p
    by_cases h : k = k0
    · simp [find?, h, keyList]
    · simp [find?, h, keyList, ih]

theorem keyList_insert_of_find?_none (m : List (K × V)) (k : K) (v : V)
    (h : find? m k = none) : keyList (insert m k v) = keyList m ++ [k] := by
  induction m with
  | nil => simp [insert, keyList]
  | cons p rest ih =>
    obtain ⟨k0, v0⟩ := p
    by_cases hk : k = k0
    · simp [find?, hk] at h
    · simp [find?, hk] at h
      simp [insert, hk, keyList] at ih ⊢
      exact ih h

theorem keyList_insert_of_find?_some (m : List (K × V)) (k : K) (v v0 : V)
    (h : find? m k = some v0) : keyList (insert m k v) = keyList m := by
  induction m with
  | nil => simp [find?] at h
  | cons p rest ih =>
    obtain ⟨k1, v1⟩ := p
    by_cases hk : k = k1
    · simp [insert, hk, keyList]
    · simp [find?, hk] at h
      simp [insert, hk, keyList] at ih ⊢
      exact ih h

theorem size_insert_of_find?_none (m : List (K × V)) (k : K) (v : V)
    (h : find? m k = none) : size (insert m k v) = size m + 1 := by
  have h0 := keyList_insert_of_find?_none m k v h
  have h1 : (keyList (insert m k v)).length = (keyList m ++ [k]).length := by rw [h0]
  simpa [size, keyList] using h1

theorem size_insert_of_find?_some (m : List (K × V)) (k : K) (v v0 : V)
    (h : find? m k = some v0) : size (insert m k v) = size m := by
  have h0 := keyList_insert_of_find?_some m k v v0 h
  have h1 : (keyList (insert m k v)).length = (keyList m).length := by rw [h0]
  simpa [size, keyList] using h1

theorem size_insert_of_isSome (m : List (K × V)) (k : K) (v : V)
    (h : (find? m k).isSome) : size (insert m k v) = size m := by
  obtain ⟨v0, hv0⟩ := Option.isSome_iff_exists.mp h
  exact size_insert_of_find?_some m k v v0 hv0

theorem WF_insert (m : List (K × V)) (k : K) (v : V) (h : WF m) :
    WF (insert m k v) := by
  rcases hf : find? m k with _ | v0
  · have h0 := keyList_insert_of_find?_none m k v hf
    unfold WF at h ⊢
    rw [h0]
    have hk : k ∉ keyList m := by
      intro hm
      have := (isSome_find?_iff_mem_keyList m k).mpr hm
      simp [hf] at this
    simpa [List.nodup_append] using ⟨h, hk⟩
  · have h0 := keyList_insert_of_find?_some m k v v0 hf
    unfold WF at h ⊢
    rw [h0]
    exact h

theorem keyList_erase (m : List (K × V)) (k : K) :
    keyList (erase m k) = (keyList m).filter (fun x => x ≠ k) := by
  induction m with
  | nil => rfl
  | cons p rest ih =>
    obtain ⟨k0, v0⟩ := p
    by_cases h : k0 = k
    · simp [erase, h, keyList] at ih ⊢
      exact ih
    · simp [erase, h, keyList] at ih ⊢
      exact ih

theorem WF_erase (m : List (K × V)) (k : K) (h : WF m) : WF (erase m k) := by
  unfold WF at h ⊢
  rw [keyList_erase]
  exact h.filter _

theorem size_erase_of_find?_none (m : List (K × V)) (k : K)
    (h : find? m k = none) : size (erase m k) = size m := by
  induction m with
  | nil => rfl
  | cons p rest ih =>
    obtain ⟨k0, v0⟩ := p
    by_cases hk : k = k0
    · simp [find?, hk] at h
    · simp [find?, hk] at h
      have hk2 : k0 ≠ k := fun hh => hk hh.symm
      simp [erase, hk2, size] at ih ⊢
      exact ih h

theorem size_erase_of_mem (m : List (K × V)) (k : K) (h : WF m)
    (hm : (find? m k).isSome) : size (erase m k) + 1 = size m := by
  induction m with
  | nil => simp [find?] at hm
  | cons p rest ih =>
    obtain ⟨k0, v0⟩ := p
    by_cases hk : k = k0
    · subst hk
      have hnone : find? rest k = none := by
        rcases hf : find? rest k with _ | v1
        · rfl
        · exfalso
          have hmem : k ∈ keyList rest :=
            (isSome_find?_iff_mem_keyList rest k).mp (by simp [hf])
          unfold WF keyList at h
          rw [List.map_cons] at h
          exact (List.nodup_cons.mp h).1 hmem
      have hsz := size_erase_of_find?_none rest k hnone
      simp [size] at hsz
      simp [erase, size, hsz]
    · simp [find?, hk] at hm
      have hk2 : k0 ≠ k := fun hh => hk hh.symm
      have hwf : WF rest := by
        unfold WF keyList at h ⊢
        rw [List.map_cons] at h
        exact (List.nodup_cons.mp h).2
      simp [erase, hk2, size] at ih ⊢
      exact ih hwf hm

end GoMap

/-- Node record of the recency index (`cacheKey` in caches.go): neighbour
keys plus the last-touch time. -/
structure cacheKey (K : Type) where
  prev : K
  next : K
  timestamp : Int
deriving DecidableEq, Inhabited

/-- The recency index (`cacheTimeMap` in caches.go): node map plus the
most recently (`first`) and least recently (`last`) touched keys. -/
structure cacheTimeMap (K : Type) where
  m : List (K × cacheKey K)
  first : K
  last : K
deriving DecidableEq

/-- `newCacheTimeMap` (caches.go): Go zero-initialises the struct, so
`first`/`last` start at the key type's zero value. -/
def newCacheTimeMap (K : Type) [Inhabited K] : cacheTimeMap K :=
  { m := [], first := default, last := default }

variable {K V : Type} [DecidableEq K] [Inhabited K]

/-- `updateTimeMap` (caches.go): update (or insert) the time for a key,
moving it to the front of the recency list. Map reads and writes are
sequenced exactly as in the source. -/
def updateTimeMap (ctm : cacheTimeMap K) (k : K) (t : Int) : cacheTimeMap K :=
  if GoMap.size ctm.m = 0 then
    let entry : cacheKey K := { prev := k, next := k, timestamp := t }
    { m := GoMap.insert ctm.m k entry, first := k, last := k }
  else
    match GoMap.find? ctm.m k with
    | none =>
        let entry : cacheKey K := { prev := k, next := ctm.first, timestamp := t }
        let first0 := GoMap.get ctm.m ctm.first
        let first1 := { first0 with prev := k }
        let m1 := GoMap.insert ctm.m ctm.first first1
        let m2 := GoMap.insert m1 k entry
        { m := m2, first := k, last := ctm.last }
    | some entry0 =>
        if ctm.first = k then
          { ctm with m := GoMap.insert ctm.m k { entry0 with timestamp := t } }
        else if ctm.last = k then
          let newLastKey := entry0.prev
          let entry1 : cacheKey K := { prev := k, next := ctm.first, timestamp := t }
          let oldFirst0 := GoMap.get ctm.m ctm.first
          let oldFirst1 := { oldFirst0 with prev := k }
          let m1 := GoMap.insert ctm.m ctm.first oldFirst1
          let m2 := GoMap.insert m1 k entry1
          let newLast0 := GoMap.get m2 newLastKey
          let newLast1 := { newLast0 with next := newLastKey }
          let m3 := GoMap.insert m2 newLastKey newLast1
          { m := m3, first := k, last := newLastKey }
        else
          let oldPrev0 := GoMap.get ctm.m entry0.prev
          let oldNext0 := GoMap.get ctm.m entry0.next
          let oldNext1 := { oldNext0 with prev := entry0.prev }
          let oldPrev1 := { oldPrev0 with next := entry0.next }
          let m1 := GoMap.insert ctm.m entry0.prev oldPrev1
          let m2 := GoMap.insert m1 entry0.next oldNext1
          let entry1 : cacheKey K := { prev := k, next := ctm.first, timestamp := t }
          let oldFirst0 := GoMap.get m2 ctm.first
          let oldFirst1 := { oldFirst0 with prev := k }
          let m3 := GoMap.insert m2 ctm.first oldFirst1
          let m4 := GoMap.insert m3 k entry1
          { m := m4, first := k, last := ctm.last }

/-- `removeOldest` (caches.go): remove the least recently touched key and
return it, or the key type's zero value if the index is empty. -/
def removeOldest (ctm : cacheTimeMap K) : cacheTimeMap K × K :=
  let zero : K := default
  if GoMap.size ctm.m = 0 then
    ({ ctm with first := zero, last := zero }, zero)
  else
    let oldest := ctm.last
    let oldEntry := GoMap.get ctm.m oldest
    let newOldest := oldEntry.prev
    let newOldEntry0 := GoMap.get ctm.m newOldest
    let newOldEntry1 := { newOldEntry0 with next := newOldest }
    let m1 := GoMap.insert ctm.m newOldest newOldEntry1
    let m2 := GoMap.erase m1 oldest
    if GoMap.size m2 = 0 then
      ({ m := m2, first := zero, last := zero }, oldest)
    else
      ({ m := m2, first := ctm.first, last := newOldest }, oldest)

/-- `sinceOldest` (caches.go): age of the least recently touched entry,
zero for an empty index. -/
def sinceOldest (ctm : cacheTimeMap K) (now : Int) : Int :=
  if GoMap.size ctm.m = 0 then 0
  else now - (GoMap.get ctm.m ctm.last).timestamp

/-- `IncorrectlySpecified` (caches.go): the only error value of the
package. -/
inductive CacheError
  | incorrectlySpecified
deriving DecidableEq

/-- The `LRW` cache struct (lrw.go): value map, recency index, bounds.
The mutex only serialises access and carries no sequential content. -/
structure LRW (K V : Type) where
  m : List (K × V)
  keys : cacheTimeMap K
  maxSize : Int
  maxAge : Int
deriving DecidableEq

/-- The `LRU` cache struct (same fields as `LRW`; the source duplicates
the struct for the second variant). -/
structure LRU (K V : Type) where
  m : List (K × V)
  keys : cacheTimeMap K
  maxSize : Int
  maxAge : Int
deriving DecidableEq

/-- The freshly built LRW cache returned on the success path of
`NewLRWCache`. -/
def mkLRW (K V : Type) [Inhabited K] (maxSize maxAge : Int) : LRW K V :=
  { m := [], keys := newCacheTimeMap K, maxSize := maxSize, maxAge := maxAge }

/-- `NewLRWCache` (lrw.go), with the key/value arguments dropped — Go
uses them only for their types. -/
def NewLRWCache (K V : Type) [Inhabited K] (maxSize maxAge : Int) :
    Except CacheError (LRW K V) :=
  if maxSize < 1 ∧ maxAge = 0 then .error .incorrectlySpecified
  else .ok (mkLRW K V maxSize maxAge)

/-- The freshly built LRU cache returned on the success path of
`NewLRUCache`. -/
def mkLRU (K V : Type) [Inhabited K] (maxSize maxAge : Int) : LRU K V :=
  { m := [], keys := newCacheTimeMap K, maxSize := maxSize, maxAge := maxAge }

/-- `NewLRUCache` (the LRU source file). -/
def NewLRUCache (K V : Type) [Inhabited K] (maxSize maxAge : Int) :
    Except CacheError (LRU K V) :=
  if maxSize < 1 ∧ maxAge = 0 then .error .incorrectlySpecified
  else .ok (mkLRU K V maxSize maxAge)

/-- The age-eviction loop shared (textually) by `lrwAge` and `lruAge`,
with explicit fuel. The callers pass fuel `size keys.m + 1`, which
suffices: on a well-formed index every iteration that recurses removes
one key from the index (proved below for the states the theorems are
about). -/
def ageLoop {V : Type} :
    Nat → List (K × V) → cacheTimeMap K → Int → Int → List (K × V) × cacheTimeMap K
  | 0, m, keys, _, _ => (m, keys)
  | fuel + 1, m, keys, now, maxAge =>
      let since := sinceOldest keys now
      if since < maxAge then (m, keys)
      else
        let r := removeOldest keys
        let m2 := GoMap.erase m r.2
        if GoMap.size m2 = 0 then (m2, r.1)
        else ageLoop fuel m2 r.1 now maxAge

/-- The size-eviction loop shared (textually) by `lrwAge` and `lruAge`,
with explicit fuel (same sufficiency argument as for `ageLoop`). -/
def sizeLoop {V : Type} :
    Nat → List (K × V) → cacheTimeMap K → Int → List (K × V) × cacheTimeMap K
  | 0, m, keys, _ => (m, keys)
  | fuel + 1, m, keys, maxSize =>
      if (GoMap.size m : Int) > maxSize then
        let r := removeOldest keys
        sizeLoop fuel (GoMap.erase m r.2) r.1 maxSize
      else (m, keys)

/-- `lrwAge` (lrw.go): age out too-old entries, then enforce the size
bound. -/
def lrwAge (lrw : LRW K V) (now : Int) : LRW K V :=
  let p1 :=
    if lrw.maxAge > 0 then
      ageLoop (GoMap.size lrw.keys.m + 1) lrw.m lrw.keys now lrw.maxAge
    else (lrw.m, lrw.keys)
  let p2 :=
    if lrw.maxSize > 0 then sizeLoop (GoMap.size p1.2.m + 1) p1.1 p1.2 lrw.maxSize
    else p1
  { lrw with m := p2.1, keys := p2.2 }

/-- `lruAge` (LRU source file): textually identical to `lrwAge`. -/
def lruAge (lru : LRU K V) (now : Int) : LRU K V :=
  let p1 :=
    if lru.maxAge > 0 then
      ageLoop (GoMap.size lru.keys.m + 1) lru.m lru.keys now lru.maxAge
    else (lru.m, lru.keys)
  let p2 :=
    if lru.maxSize > 0 then sizeLoop (GoMap.size p1.2.m + 1) p1.1 p1.2 lru.maxSize
    else p1
  { lru with m := p2.1, keys := p2.2 }

/-- `SetLRW` (lrw.go); `now` stands for the `time.Now()` call. -/
def SetLRW (lrw : LRW K V) (k : K) (v : V) (now : Int) : LRW K V :=
  lrwAge { lrw with m := GoMap.insert lrw.m k v, keys := updateTimeMap lrw.keys k now } now

/-- `GetLRW` (lrw.go): a plain lookup returning `(value, ok)` plus the
(unchanged) cache state; the Go body performs no write and reads no
clock. -/
def GetLRW [Inhabited V] (lrw : LRW K V) (k : K) : (V × Bool) × LRW K V :=
  ((GoMap.get lrw.m k, (GoMap.find? lrw.m k).isSome), lrw)

/-- `SetLRU` (LRU source file); textually identical to `SetLRW`. -/
def SetLRU (lru : LRU K V) (k : K) (v : V) (now : Int) : LRU K V :=
  lruAge { lru with m := GoMap.insert lru.m k v, keys := updateTimeMap lru.keys k now } now

/-- `GetLRU` (LRU source file): touches the recency index before the
lookup — unconditionally, even for absent keys. -/
def GetLRU [Inhabited V] (lru : LRU K V) (k : K) (now : Int) :
    (V × Bool) × LRU K V :=
  let keys2 := updateTimeMap lru.keys k now
  ((GoMap.get lru.m k, (GoMap.find? lru.m k).isSome), { lru with keys := keys2 })

/-- One public call on an LRW cache; `set` carries the wall-clock
instant of its `time.Now()`. -/
inductive LRWOp (K V : Type)
  | set (k : K) (v : V) (now : Int)
  | get (k : K)

/-- One public call on an LRU cache; both calls read the clock. -/
inductive LRUOp (K V : Type)
  | set (k : K) (v : V) (now : Int)
  | get (k : K) (now : Int)

/-- Apply one LRW call to the cache state. -/
def LRWstep [Inhabited V] (c : LRW K V) : LRWOp K V → LRW K V
  | .set k v now => SetLRW c k v now
  | .get k => (GetLRW c k).2

/-- Apply a sequence of LRW calls in order. -/
def LRWrun [Inhabited V] (c : LRW K V) (ops : List (LRWOp K V)) : LRW K V :=
  ops.foldl LRWstep c

/-- Apply one LRU call to the cache state. -/
def LRUstep [Inhabited V] (c : LRU K V) : LRUOp K V → LRU K V
  | .set k v now => SetLRU c k v now
  | .get k now => (GetLRU c k now).2

/-- Apply a sequence of LRU calls in order. -/
def LRUrun [Inhabited V] (c : LRU K V) (ops : List (LRUOp K V)) : LRU K V :=
  ops.foldl LRUstep c

/-- Walk the recency index from a key following the `next` (toward-tail)
pointers for a given number of steps, collecting the keys visited. -/
def ctmWalk (ctm : cacheTimeMap K) : Nat → K → List K
  | 0, _ => []
  | n + 1, k => k :: ctmWalk ctm n (GoMap.get ctm.m k).next

/-- The recency-index states reachable through `updateTimeMap` and
`removeOldest` from a fresh index. -/
inductive CtmReach : cacheTimeMap K → Prop
  | init : CtmReach (newCacheTimeMap K)
  | touch (ctm : cacheTimeMap K) (k : K) (t : Int) :
      CtmReach ctm → CtmReach (updateTimeMap ctm k t)
  | evict (ctm : cacheTimeMap K) : CtmReach ctm → CtmReach (removeOldest ctm).1

/- Abstract view of the recency index: a most-recent-first list of
(key, last-touch time) pairs. -/

/-- Key of the head element, with fallback for the empty list. -/
def headKey : List (K × Int) → K → K
  | [], d => d
  | (k, _) :: _, _ => k

/-- Key of the last element, with fallback for the empty list. -/
def lastKey : List (K × Int) → K → K
  | [], d => d
  | (k, _) :: rest, _ => lastKey rest k

/-- Time of the last element, with fallback for the empty list. -/
def lastTs : List (K × Int) → Int → Int
  | [], d => d
  | (_, t) :: rest, _ => lastTs rest t

/-- The key sequence of an abstract list. -/
def keysOf (l : List (K × Int)) : List K := l.map Prod.fst

/-- Remove every pair carrying the given key. -/
def eraseKey (k : K) : List (K × Int) → List (K × Int)
  | [] => []
  | (k0, t0) :: rest =>
      if k0 = k then eraseKey k rest else (k0, t0) :: eraseKey k rest

/-- Doubly-linked layout of an abstract list inside a node map: walking
the list with predecessor `p`, every element's node record holds its
predecessor, its successor (`nk` past the end) and its timestamp. -/
def chainN (mm : List (K × cacheKey K)) : K → List (K × Int) → K → Prop
  | _, [], _ => True
  | p, (k, t) :: rest, nk =>
      GoMap.find? mm k = some { prev := p, next := headKey rest nk, timestamp := t } ∧
      chainN mm k rest nk

/-- Full representation invariant: the recency index realises the
abstract most-recent-first list `l` (head = most recently touched). -/
structure CtmRep (ctm : cacheTimeMap K) (l : List (K × Int)) : Prop where
  wf : GoMap.WF ctm.m
  nodup : (keysOf l).Nodup
  closed : ∀ x : K, (GoMap.find? ctm.m x).isSome ↔ x ∈ keysOf l
  sizeEq : GoMap.size ctm.m = l.length
  first_eq : ctm.first = headKey l default
  last_eq : ctm.last = lastKey l default
  link : chainN ctm.m (headKey l default) l (lastKey l default)

/-- Cache-level invariant for the LRW variant: the recency index
realises the abstract list `l` and the value map holds exactly the
listed keys. -/
def LRWGood (c : LRW K V) (l : List (K × Int)) : Prop :=
  CtmRep c.keys l ∧ GoMap.WF c.m ∧
    ∀ x : K, (GoMap.find? c.m x).isSome ↔ x ∈ keysOf l

/-- Cache-level invariant for the LRU variant: since `GetLRU` inserts
phantom index entries, the value map's keys are only a subset of the
listed keys. -/
def LRUGood (c : LRU K V) (l : List (K × Int)) : Prop :=
  CtmRep c.keys l ∧ GoMap.WF c.m ∧
    ∀ x : K, (GoMap.find? c.m x).isSome → x ∈ keysOf l

/-- Timestamps of the abstract list are non-increasing from head to
tail and bounded above by `τ`. -/
def TsOK (l : List (K × Int)) (τ : Int) : Prop :=
  List.Pairwise (fun a b : K × Int => b.2 ≤ a.2) l ∧ ∀ p ∈ l, p.2 ≤ τ

/-- Wall-clock instants of an LRW call sequence are non-decreasing and
start no earlier than `τ`. -/
def LRWChron (τ : Int) : List (LRWOp K V) → Prop
  | [] => True
  | LRWOp.set _ _ t :: rest => τ ≤ t ∧ LRWChron t rest
  | LRWOp.get _ :: rest => LRWChron τ rest

/-- The last wall-clock instant of an LRW call sequence (`τ` if the
sequence reads no clock). -/
def LRWlastT (τ : Int) : List (LRWOp K V) → Int
  | [] => τ
  | LRWOp.set _ _ t :: rest => LRWlastT t rest
  | LRWOp.get _ :: rest => LRWlastT τ rest

/-- Wall-clock instants of an LRU call sequence (both `Set` and `Get`
read the clock) are non-decreasing and start no earlier than `τ`. -/
def LRUChron (τ : Int) : List (LRUOp K V) → Prop
  | [] => True
  | LRUOp.set _ _ t :: rest => τ ≤ t ∧ LRUChron t rest
  | LRUOp.get _ t :: rest => τ ≤ t ∧ LRUChron t rest

/-- The last wall-clock instant of an LRU call sequence (`τ` if the
sequence is empty). -/
def LRUlastT (τ : Int) : List (LRUOp K V) → Int
  | [] => τ
  | LRUOp.set _ _ t :: rest => LRUlastT t rest
  | LRUOp.get _ t :: rest => LRUlastT t rest

/- ------------------------------------------------------------------ -/
/- Helper lemmas.                                                     -/
/- ------------------------------------------------------------------ -/

theorem headKey_irrel (l : List (K × Int)) (hl : l ≠ []) (d d2 : K) :
    headKey l d = headKey l d2 := by
  cases l with
  | nil => exact absurd rfl hl
  | cons p rest => rfl

theorem lastKey_irrel (l : List (K × Int)) (hl : l ≠ []) (d d2 : K) :
    lastKey l d = lastKey l d2 := by
  cases l with
  | nil => exact absurd rfl hl
  | cons p rest =>
    obtain ⟨k, t⟩ := p
    rfl

theorem lastTs_irrel (l : List (K × Int)) (hl : l ≠ []) (d d2 : Int) :
    lastTs l d = lastTs l d2 := by
  cases l with
  | nil => exact absurd rfl hl
  | cons p rest =>
    obtain ⟨k, t⟩ := p
    rfl

theorem headKey_nil (d : K) : headKey ([] : List (K × Int)) d = d := rfl

theorem headKey_cons (a : K) (b : Int) (l : List (K × Int)) (d : K) :
    headKey ((a, b) :: l) d = a := rfl

theorem lastKey_nil (d : K) : lastKey ([] : List (K × Int)) d = d := rfl

theorem lastKey_cons (a : K) (b : Int) (l : List (K × Int)) (d : K) :
    lastKey ((a, b) :: l) d = lastKey l a := rfl

theorem lastTs_nil (d : Int) : lastTs ([] : List (K × Int)) d = d := rfl

theorem lastTs_cons (a : K) (b : Int) (l : List (K × Int)) (d : Int) :
    lastTs ((a, b) :: l) d = lastTs l b := rfl

theorem headKey_mem (l : List (K × Int)) (hl : l ≠ []) (d : K) :
    headKey l d ∈ keysOf l := by
  cases l with
  | nil => exact absurd rfl hl
  | cons p rest =>
    obtain ⟨k, t⟩ := p
    simp [headKey, keysOf]

theorem lastKey_mem (l : List (K × Int)) (hl : l ≠ []) (d : K) :
    lastKey l d ∈ keysOf l := by
  induction l generalizing d with
  | nil => exact absurd rfl hl
  | cons p rest ih =>
    obtain ⟨k, t⟩ := p
    by_cases hr : rest = []
    · subst hr
      simp [lastKey, keysOf]
    · have := ih hr k
      simp [lastKey, keysOf] at this ⊢
      exact Or.inr this

theorem headKey_append (a b : List (K × Int)) (d : K) :
    headKey (a ++ b) d = headKey a (headKey b d) := by
  cases a with
  | nil => rfl
  | cons p rest =>
    obtain ⟨k, t⟩ := p
    rfl

theorem lastKey_append (a b : List (K × Int)) (d : K) :
    lastKey (a ++ b) d = lastKey b (lastKey a d) := by
  induction a generalizing d with
  | nil => rfl
  | cons p rest ih =>
    obtain ⟨k, t⟩ := p
    simp [lastKey, ih]

theorem lastTs_append (a b : List (K × Int)) (d : Int) :
    lastTs (a ++ b) d = lastTs b (lastTs a d) := by
  induction a generalizing d with
  | nil => rfl
  | cons p rest ih =>
    obtain ⟨k, t⟩ := p
    simp [lastTs, ih]

theorem keysOf_append (a b : List (K × Int)) :
    keysOf (a ++ b) = keysOf a ++ keysOf b := by
  simp [keysOf]

theorem eraseKey_of_not_mem (k : K) (l : List (K × Int)) (h : k ∉ keysOf l) :
    eraseKey k l = l := by
  induction l with
  | nil => rfl
  | cons p rest ih =>
    obtain ⟨k0, t0⟩ := p
    simp only [keysOf, List.map_cons, List.mem_cons] at h
    push_neg at h
    have hne : k0 ≠ k := fun hh => h.1 hh.symm
    simp only [eraseKey, if_neg hne]
    rw [ih h.2]

theorem eraseKey_append (k : K) (a b : List (K × Int)) :
    eraseKey k (a ++ b) = eraseKey k a ++ eraseKey k b := by
  induction a with
  | nil => rfl
  | cons p rest ih =>
    obtain ⟨k0, t0⟩ := p
    by_cases h : k0 = k
    · simp [eraseKey, h, ih]
    · simp [eraseKey, h, ih]

theorem chainN_append (mm : List (K × cacheKey K)) (p nk : K) (a b : List (K × Int)) :
    chainN mm p (a ++ b) nk ↔
      chainN mm p a (headKey b nk) ∧ chainN mm (lastKey a p) b nk := by
  induction a generalizing p with
  | nil => simp [chainN, lastKey]
  | cons q rest ih =>
    obtain ⟨k, t⟩ := q
    simp only [List.cons_append, chainN, lastKey, List.append_eq]
    constructor
    · rintro ⟨h1, h2⟩
      rw [ih k] at h2
      rw [headKey_append] at h1
      exact ⟨⟨h1, h2.1⟩, h2.2⟩
    · rintro ⟨⟨h1, h2⟩, h3⟩
      rw [headKey_append]
      exact ⟨h1, (ih k).mpr ⟨h2, h3⟩⟩

theorem chainN_congr (mm mm2 : List (K × cacheKey K)) (nk : K) (l : List (K × Int))
    (hframe : ∀ x ∈ keysOf l, GoMap.find? mm2 x = GoMap.find? mm x) :
    ∀ p, chainN mm p l nk → chainN mm2 p l nk := by
  induction l with
  | nil =>
    intro p h
    trivial
  | cons q rest ih =>
    obtain ⟨k, t⟩ := q
    intro p h
    obtain ⟨h1, h2⟩ := h
    refine ⟨?_, ?_⟩
    · rw [hframe k (by simp [keysOf])]
      exact h1
    · exact ih (fun x hx => hframe x (by simp [keysOf] at hx ⊢; exact Or.inr hx)) k h2

theorem exists_split_of_mem_keysOf (l : List (K × Int)) (k : K) (h : k ∈ keysOf l) :
    ∃ l1 t l2, l = l1 ++ (k, t) :: l2 := by
  induction l with
  | nil => simp [keysOf] at h
  | cons p rest ih =>
    obtain ⟨k0, t0⟩ := p
    by_cases hk : k0 = k
    · exact ⟨[], t0, rest, by simp [hk]⟩
    · have h2 : k ∈ keysOf rest := by
        simp only [keysOf, List.map_cons, List.mem_cons] at h
        rcases h with h | h
        · exact absurd h.symm hk
        · exact h
      obtain ⟨l1, t, l2, hl⟩ := ih h2
      exact ⟨(k0, t0) :: l1, t, l2, by simp [hl]⟩

theorem chainN_retarget (mm mm2 : List (K × cacheKey K)) (nk nk2 : K)
    (a : List (K × Int)) (hnd : (keysOf a).Nodup) :
    ∀ p, chainN mm p a nk →
      (∀ x ∈ keysOf a, x ≠ lastKey a p → GoMap.find? mm2 x = GoMap.find? mm x) →
      (∀ e : cacheKey K, GoMap.find? mm (lastKey a p) = some e →
        GoMap.find? mm2 (lastKey a p) = some { e with next := nk2 }) →
      chainN mm2 p a nk2 := by
  induction a with
  | nil =>
    intro p h hframe hlast
    trivial
  | cons q rest ih =>
    obtain ⟨k, t⟩ := q
    intro p h hframe hlast
    obtain ⟨h1, h2⟩ := h
    have hknr : k ∉ keysOf rest := by
      rw [keysOf, List.map_cons] at hnd
      exact (List.nodup_cons.mp hnd).1
    have hndr : (keysOf rest).Nodup := by
      rw [keysOf, List.map_cons] at hnd
      exact (List.nodup_cons.mp hnd).2
    by_cases hr : rest = []
    · subst hr
      exact ⟨hlast { prev := p, next := nk, timestamp := t } h1, trivial⟩
    · have hkl : k ≠ lastKey rest k := by
        intro hh
        exact hknr (hh ▸ lastKey_mem rest hr k)
      refine ⟨?_, ?_⟩
      · rw [hframe k (by simp [keysOf]) hkl, h1, headKey_irrel rest hr nk nk2]
      · refine ih hndr k h2 ?_ hlast
        intro x hx hxl
        exact hframe x (by simp [keysOf] at hx ⊢; exact Or.inr hx) hxl

/- Preservation of the representation invariant by `updateTimeMap`,
one source branch at a time. -/

theorem updateTimeMap_rep_nil (ctm : cacheTimeMap K) (k : K) (t : Int)
    (h : CtmRep ctm []) : CtmRep (updateTimeMap ctm k t) [(k, t)] := by
  have hm : ctm.m = [] := List.length_eq_zero.mp h.sizeEq
  have h0 : GoMap.size ctm.m = 0 := by
    rw [hm]
    rfl
  have hu : updateTimeMap ctm k t =
      { m := [(k, { prev := k, next := k, timestamp := t })], first := k, last := k } := by
    unfold updateTimeMap
    rw [if_pos h0, hm]
    rfl
  rw [hu]
  refine ⟨?_, ?_, ?_, rfl, rfl, rfl, ?_⟩
  · simp [GoMap.WF, GoMap.keyList]
  · simp [keysOf]
  · intro x
    by_cases hx : x = k
    · simp [GoMap.find?, hx, keysOf]
    · simp [GoMap.find?, hx, keysOf]
  · exact ⟨by simp [GoMap.find?, headKey, lastKey], trivial⟩

theorem updateTimeMap_rep_head (ctm : cacheTimeMap K) (k : K) (t t0 : Int)
    (rest : List (K × Int)) (h : CtmRep ctm ((k, t0) :: rest)) :
    CtmRep (updateTimeMap ctm k t) ((k, t) :: rest) := by
  have hne : GoMap.size ctm.m ≠ 0 := by
    rw [h.sizeEq]
    simp
  have hfirst : ctm.first = k := by simpa [headKey] using h.first_eq
  have hlk := h.link
  simp only [headKey, lastKey] at hlk
  obtain ⟨h1, h2⟩ := hlk
  have hknr : k ∉ keysOf rest := by
    have hnd := h.nodup
    rw [keysOf, List.map_cons] at hnd
    exact (List.nodup_cons.mp hnd).1
  have hu : updateTimeMap ctm k t =
      { ctm with m := (GoMap.insert ctm.m k
          { prev := k, next := headKey rest (lastKey rest k), timestamp := t }) } := by
    unfold updateTimeMap
    rw [if_neg hne, h1]
    simp [hfirst]
  rw [hu]
  refine ⟨?_, ?_, ?_, ?_, ?_, ?_, ?_⟩
  · exact GoMap.WF_insert ctm.m k _ h.wf
  · simpa [keysOf] using h.nodup
  · intro x
    by_cases hx : x = k
    · subst hx
      simp [GoMap.find?_insert_self, keysOf]
    · rw [GoMap.find?_insert_ne _ _ _ _ hx]
      have := h.closed x
      simpa [keysOf, hx] using this
  · rw [GoMap.size_insert_of_find?_some ctm.m k _ _ h1, h.sizeEq]
    simp
  · simpa [headKey] using hfirst
  · simpa [lastKey] using h.last_eq
  · refine ⟨?_, ?_⟩
    · simpa [headKey, lastKey] using GoMap.find?_insert_self ctm.m k
        ({ prev := k, next := headKey rest (lastKey rest k), timestamp := t })
    · refine chainN_congr ctm.m _ _ rest ?_ k ?_
      · intro x hx
        have hxk : x ≠ k := fun hh => hknr (hh ▸ hx)
        exact GoMap.find?_insert_ne _ _ _ _ hxk
      · simpa [lastKey] using h2

theorem updateTimeMap_rep_new (ctm : cacheTimeMap K) (k : K) (t : Int)
    (l : List (K × Int)) (h : CtmRep ctm l) (hl : l ≠ []) (hk : k ∉ keysOf l) :
    CtmRep (updateTimeMap ctm k t) ((k, t) :: l) := by
  cases l with
  | nil => exact absurd rfl hl
  | cons q rest =>
  obtain ⟨f, tf⟩ := q
  have hne : GoMap.size ctm.m ≠ 0 := by
    rw [h.sizeEq]
    simp
  have hfnone : GoMap.find? ctm.m k = none := by
    rcases hfk : GoMap.find? ctm.m k with _ | e
    · rfl
    · exact absurd ((h.closed k).mp (by simp [hfk])) hk
  have hfirst : ctm.first = f := by simpa [headKey] using h.first_eq
  have hlk := h.link
  simp only [headKey, lastKey] at hlk
  obtain ⟨hf1, hf2⟩ := hlk
  have hkf : k ≠ f := by
    intro hh
    exact hk (by simp [hh, keysOf])
  have hfnr : f ∉ keysOf rest := by
    have hnd := h.nodup
    rw [keysOf, List.map_cons] at hnd
    exact (List.nodup_cons.mp hnd).1
  have hknr : k ∉ keysOf rest := fun hx => hk (by simp [keysOf] at hx ⊢; exact Or.inr hx)
  have hu : updateTimeMap ctm k t =
      { m := (GoMap.insert (GoMap.insert ctm.m f
            { prev := k, next := headKey rest (lastKey rest f), timestamp := tf }) k
            { prev := k, next := f, timestamp := t }),
        first := k, last := ctm.last } := by
    unfold updateTimeMap
    rw [if_neg hne, hfnone]
    simp [GoMap.get, hfirst, hf1]
  rw [hu]
  have hfm1 : GoMap.find? (GoMap.insert ctm.m f
      { prev := k, next := headKey rest (lastKey rest f), timestamp := tf }) k = none := by
    rw [GoMap.find?_insert_ne _ _ _ _ hkf]
    exact hfnone
  refine ⟨?_, ?_, ?_, ?_, rfl, ?_, ?_⟩
  · exact GoMap.WF_insert _ k _ (GoMap.WF_insert _ f _ h.wf)
  · rw [keysOf, List.map_cons]
    exact List.nodup_cons.mpr ⟨hk, h.nodup⟩
  · intro x
    by_cases hx : x = k
    · subst hx
      simp [GoMap.find?_insert_self, keysOf]
    · rw [GoMap.find?_insert_ne _ _ _ _ hx]
      by_cases hxf : x = f
      · subst hxf
        simp [GoMap.find?_insert_self, keysOf]
      · rw [GoMap.find?_insert_ne _ _ _ _ hxf]
        have hcl := h.closed x
        simp [keysOf, hx, hxf] at hcl ⊢
        exact hcl
  · rw [GoMap.size_insert_of_find?_none _ k _ hfm1,
      GoMap.size_insert_of_find?_some ctm.m f _ _ hf1, h.sizeEq]
    simp
  · simpa [lastKey] using h.last_eq
  · refine ⟨?_, ?_, ?_⟩
    · exact GoMap.find?_insert_self _ k _
    · have hfk2 : f ≠ k := fun hh => hkf hh.symm
      rw [GoMap.find?_insert_ne _ _ _ _ hfk2]
      simpa [headKey, lastKey] using GoMap.find?_insert_self ctm.m f
        { prev := k, next := headKey rest (lastKey rest f), timestamp := tf }
    · refine chainN_congr ctm.m _ _ rest ?_ f ?_
      · intro x hx
        have hxk : x ≠ k := fun hh => hknr (hh ▸ hx)
        have hxf : x ≠ f := fun hh => hfnr (hh ▸ hx)
        rw [GoMap.find?_insert_ne _ _ _ _ hxk, GoMap.find?_insert_ne _ _ _ _ hxf]
      · simpa [lastKey] using hf2

theorem updateTimeMap_rep_last (ctm : cacheTimeMap K) (k f : K) (t tk tf : Int)
    (mid : List (K × Int))
    (h : CtmRep ctm ((f, tf) :: (mid ++ [(k, tk)]))) (hkf : k ≠ f) :
    CtmRep (updateTimeMap ctm k t) ((k, t) :: (f, tf) :: mid) := by
  have hne : GoMap.size ctm.m ≠ 0 := by
    rw [h.sizeEq]
    simp
  have hnd := h.nodup
  rw [keysOf] at hnd
  simp only [List.map_cons, List.map_append, List.map_nil] at hnd
  have hfknd := List.nodup_cons.mp hnd
  have hrnd := (List.nodup_append.mp hfknd.2)
  have hmidnd : (keysOf mid).Nodup := hrnd.1
  have hkmid : k ∉ keysOf mid := by
    intro hx
    exact hrnd.2.2 hx (by simp)
  have hfmid : f ∉ keysOf mid := by
    intro hx
    exact hfknd.1 (by simp [keysOf] at hx; simp [hx])
  have hfirst : ctm.first = f := by simpa [headKey] using h.first_eq
  have hlastk : ctm.last = k := by
    simpa [lastKey, lastKey_append] using h.last_eq
  have hlk2 : chainN ctm.m f ((f, tf) :: (mid ++ [(k, tk)])) k := by
    have hl0 := h.link
    simp only [headKey, lastKey, lastKey_append] at hl0
    exact hl0
  obtain ⟨hf1, hrest⟩ := hlk2
  have hf1x : GoMap.find? ctm.m f =
      some { prev := f, next := headKey mid k, timestamp := tf } := by
    rw [headKey_append] at hf1
    simpa [headKey] using hf1
  have hsplit := (chainN_append ctm.m f k mid [(k, tk)]).mp hrest
  have hmidchain : chainN ctm.m f mid k := by
    simpa [headKey] using hsplit.1
  have hk1 : GoMap.find? ctm.m k =
      some { prev := lastKey mid f, next := k, timestamp := tk } := by
    have hx := hsplit.2
    simp only [chainN, headKey] at hx
    exact hx.1
  have hpkk : lastKey mid f ≠ k := by
    by_cases hmid : mid = []
    · subst hmid
      exact fun hh => hkf (hh.symm ▸ rfl)
    · intro hh
      exact hkmid (hh ▸ lastKey_mem mid hmid f)
  have hkpk : k ≠ lastKey mid f := fun hh => hpkk hh.symm
  have hfk2 : f ≠ k := Ne.symm hkf
  have hu : updateTimeMap ctm k t =
      { m := (GoMap.insert
          (GoMap.insert
            (GoMap.insert ctm.m f { prev := k, next := headKey mid k, timestamp := tf })
            k { prev := k, next := f, timestamp := t })
          (lastKey mid f)
          ({ GoMap.get
              (GoMap.insert
                (GoMap.insert ctm.m f { prev := k, next := headKey mid k, timestamp := tf })
                k { prev := k, next := f, timestamp := t })
              (lastKey mid f) with next := lastKey mid f })),
        first := k, last := lastKey mid f } := by
    have hcf : ¬ (ctm.first = k) := by
      rw [hfirst]
      exact hfk2
    unfold updateTimeMap
    rw [if_neg hne, hk1]
    simp [hcf, hfk2, hlastk, GoMap.get, hf1x, hfirst]
  rw [hu]
  -- find? facts on the three-stage map
  have hm1f : GoMap.find?
      (GoMap.insert ctm.m f { prev := k, next := headKey mid k, timestamp := tf }) f
      = some { prev := k, next := headKey mid k, timestamp := tf } :=
    GoMap.find?_insert_self ctm.m f _
  have hm1k : GoMap.find?
      (GoMap.insert ctm.m f { prev := k, next := headKey mid k, timestamp := tf }) k
      = GoMap.find? ctm.m k :=
    GoMap.find?_insert_ne ctm.m f k _ hkf
  have hm2k : GoMap.find?
      (GoMap.insert
        (GoMap.insert ctm.m f { prev := k, next := headKey mid k, timestamp := tf })
        k { prev := k, next := f, timestamp := t }) k
      = some { prev := k, next := f, timestamp := t } :=
    GoMap.find?_insert_self _ k _
  have hm2f : GoMap.find?
      (GoMap.insert
        (GoMap.insert ctm.m f { prev := k, next := headKey mid k, timestamp := tf })
        k { prev := k, next := f, timestamp := t }) f
      = some { prev := k, next := headKey mid k, timestamp := tf } := by
    rw [GoMap.find?_insert_ne _ k f _ hfk2]
    exact hm1f
  have hm2other : ∀ x : K, x ≠ k → x ≠ f → GoMap.find?
      (GoMap.insert
        (GoMap.insert ctm.m f { prev := k, next := headKey mid k, timestamp := tf })
        k { prev := k, next := f, timestamp := t }) x
      = GoMap.find? ctm.m x := by
    intro x hxk hxf
    rw [GoMap.find?_insert_ne _ k x _ hxk, GoMap.find?_insert_ne _ f x _ hxf]
  have hm2pk : (GoMap.find?
      (GoMap.insert
        (GoMap.insert ctm.m f { prev := k, next := headKey mid k, timestamp := tf })
        k { prev := k, next := f, timestamp := t }) (lastKey mid f)).isSome := by
    by_cases hmid : mid = []
    · subst hmid
      simp only [lastKey]
      rw [hm2f]
      rfl
    · have hpkmem : lastKey mid f ∈ keysOf mid := lastKey_mem mid hmid f
      have hpkf : lastKey mid f ≠ f := fun hh => hfmid (hh ▸ hpkmem)
      rw [hm2other _ hpkk hpkf]
      refine (h.closed _).mpr ?_
      have hpkmem2 : lastKey mid f ∈ List.map Prod.fst mid := by
        simpa [keysOf] using hpkmem
      simp [keysOf, hpkmem2]
  refine ⟨?_, ?_, ?_, ?_, rfl, rfl, ?_⟩
  · exact GoMap.WF_insert _ _ _ (GoMap.WF_insert _ _ _ (GoMap.WF_insert _ _ _ h.wf))
  · rw [keysOf]
    simp only [List.map_cons]
    refine List.nodup_cons.mpr ⟨?_, List.nodup_cons.mpr ⟨hfmid, hmidnd⟩⟩
    simp only [List.mem_cons]
    rintro (hh | hh)
    · exact hkf hh
    · exact hkmid hh
  · intro x
    by_cases hxpk : x = lastKey mid f
    · subst hxpk
      constructor
      · intro _
        by_cases hmid : mid = []
        · subst hmid
          simp [lastKey, keysOf]
        · have hpkmem2 : lastKey mid f ∈ List.map Prod.fst mid := by
            simpa [keysOf] using lastKey_mem mid hmid f
          simp [keysOf, hpkmem2]
      · intro _
        simp [GoMap.find?_insert_self]
    · rw [GoMap.find?_insert_ne _ _ _ _ hxpk]
      by_cases hxk : x = k
      · subst hxk
        rw [hm2k]
        simp [keysOf]
      · by_cases hxf : x = f
        · subst hxf
          rw [hm2f]
          simp [keysOf]
        · rw [hm2other x hxk hxf]
          have hcl := h.closed x
          simp [keysOf, hxk, hxf] at hcl ⊢
          exact hcl
  · rw [GoMap.size_insert_of_find?_some _ _ _ _ (Option.isSome_iff_exists.mp hm2pk).choose_spec,
      GoMap.size_insert_of_find?_some _ k _ _ (by rw [hm1k]; exact hk1),
      GoMap.size_insert_of_find?_some _ f _ _ hf1x, h.sizeEq]
    simp
  · refine ⟨?_, ?_, ?_⟩
    · rw [GoMap.find?_insert_ne _ _ k _ hkpk, hm2k]
      rfl
    · by_cases hmid : mid = []
      · subst hmid
        have hm2fx := hm2f
        simp only [headKey] at hm2fx
        simp only [lastKey, headKey]
        rw [GoMap.find?_insert_self]
        simp only [GoMap.get, hm2fx]
        rfl
      · have hpkmem : lastKey mid f ∈ keysOf mid := lastKey_mem mid hmid f
        have hfpk : f ≠ lastKey mid f := fun hh => hfmid (hh ▸ hpkmem)
        simp only [lastKey]
        rw [GoMap.find?_insert_ne _ _ f _ hfpk, hm2f,
          headKey_irrel mid hmid (lastKey mid f) k]
    · by_cases hmid : mid = []
      · subst hmid
        trivial
      · simp only [lastKey]
        refine chainN_retarget ctm.m _ k (lastKey mid f) mid hmidnd f hmidchain ?_ ?_
        · intro x hx hxl
          have hxk : x ≠ k := fun hh => hkmid (hh ▸ hx)
          have hxf : x ≠ f := fun hh => hfmid (hh ▸ hx)
          rw [GoMap.find?_insert_ne _ _ _ _ hxl, hm2other x hxk hxf]
        · intro e he
          have hpkmem : lastKey mid f ∈ keysOf mid := lastKey_mem mid hmid f
          have hpkf : lastKey mid f ≠ f := fun hh => hfmid (hh ▸ hpkmem)
          rw [GoMap.find?_insert_self]
          simp only [GoMap.get, hm2other _ hpkk hpkf, he]
          rfl

theorem updateTimeMap_rep_mid (ctm : cacheTimeMap K) (k f nk0 : K) (t tk tf tn : Int)
    (mid rest2 : List (K × Int))
    (h : CtmRep ctm ((f, tf) :: (mid ++ (k, tk) :: (nk0, tn) :: rest2)))
    (hkf : k ≠ f) :
    CtmRep (updateTimeMap ctm k t) ((k, t) :: (f, tf) :: (mid ++ (nk0, tn) :: rest2)) := by
  have hne : GoMap.size ctm.m ≠ 0 := by
    rw [h.sizeEq]
    simp
  -- dissect the no-duplicate-keys hypothesis
  have hnd := h.nodup
  rw [keysOf] at hnd
  simp only [List.map_cons, List.map_append] at hnd
  rw [List.nodup_cons] at hnd
  obtain ⟨hfnotin, hnd1⟩ := hnd
  rw [List.nodup_append] at hnd1
  obtain ⟨hmidnd, hnd2, hdisj⟩ := hnd1
  rw [List.nodup_cons] at hnd2
  obtain ⟨hknotin, hnd3⟩ := hnd2
  rw [List.nodup_cons] at hnd3
  obtain ⟨hnknotin, hrest2nd⟩ := hnd3
  simp only [List.mem_cons, not_or] at hknotin
  obtain ⟨hknk, hkrest2⟩ := hknotin
  simp only [List.mem_append, List.mem_cons, not_or] at hfnotin
  obtain ⟨hfmid, hfk, hfnk, hfrest2⟩ := hfnotin
  have hkmid : k ∉ List.map Prod.fst mid := fun hx => hdisj hx (by simp)
  have hnkmid : nk0 ∉ List.map Prod.fst mid := fun hx => hdisj hx (by simp)
  -- facts about the predecessor key of k
  have hpKin : lastKey mid f = f ∨ lastKey mid f ∈ List.map Prod.fst mid := by
    by_cases hmid : mid = []
    · subst hmid
      exact Or.inl rfl
    · exact Or.inr (by simpa [keysOf] using lastKey_mem mid hmid f)
  have hkpK : k ≠ lastKey mid f := by
    rcases hpKin with hp | hp
    · rw [hp]
      exact hkf
    · intro hh
      exact hkmid (hh ▸ hp)
  have hnkpK : nk0 ≠ lastKey mid f := by
    rcases hpKin with hp | hp
    · rw [hp]
      exact fun hh => hfnk hh.symm
    · intro hh
      exact hnkmid (hh ▸ hp)
  have hpKrest2 : lastKey mid f ∉ List.map Prod.fst rest2 := by
    rcases hpKin with hp | hp
    · rw [hp]
      exact hfrest2
    · exact fun hx => hdisj hp (by simp [hx])
  -- head and tail fields
  have hfirst : ctm.first = f := by simpa [headKey] using h.first_eq
  have hlastlk : ctm.last = lastKey rest2 nk0 := by
    simpa [lastKey, lastKey_append] using h.last_eq
  have hcl : ¬ (ctm.last = k) := by
    rw [hlastlk]
    by_cases hr2 : rest2 = []
    · subst hr2
      exact fun hh => hknk hh.symm
    · intro hh
      exact hkrest2 (hh ▸ (by simpa [keysOf] using lastKey_mem rest2 hr2 nk0))
  have hcf : ¬ (ctm.first = k) := by
    rw [hfirst]
    exact fun hh => hkf hh.symm
  -- dissect the chain
  have hlk2 : chainN ctm.m f ((f, tf) :: (mid ++ (k, tk) :: (nk0, tn) :: rest2))
      (lastKey rest2 nk0) := by
    have hl0 := h.link
    simp only [headKey_cons, lastKey_cons, lastKey_nil, lastKey_append] at hl0
    exact hl0
  obtain ⟨hf1, hrest⟩ := hlk2
  have hf1x : GoMap.find? ctm.m f =
      some { prev := f, next := headKey mid k, timestamp := tf } := by
    rw [headKey_append] at hf1
    simpa [headKey_cons] using hf1
  have hsplit := (chainN_append ctm.m f (lastKey rest2 nk0) mid
    ((k, tk) :: (nk0, tn) :: rest2)).mp hrest
  have hmidchain : chainN ctm.m f mid k := by
    simpa [headKey_cons] using hsplit.1
  have hrest1 := hsplit.2
  simp only [chainN, headKey_cons] at hrest1
  obtain ⟨hk1, hnk1, hrest3⟩ := hrest1
  -- hk1 : find? k = ⟨lastKey mid f, nk0, tk⟩
  -- hnk1 : find? nk0 = ⟨k, headKey rest2 (lastKey rest2 nk0), tn⟩
  -- the computed update
  have hu : updateTimeMap ctm k t =
      { m := (GoMap.insert
          (GoMap.insert
            (GoMap.insert
              (GoMap.insert ctm.m (lastKey mid f)
                ({ GoMap.get ctm.m (lastKey mid f) with next := nk0 }))
              nk0 ({ GoMap.get ctm.m nk0 with prev := lastKey mid f }))
            f ({ GoMap.get
                  (GoMap.insert
                    (GoMap.insert ctm.m (lastKey mid f)
                      ({ GoMap.get ctm.m (lastKey mid f) with next := nk0 }))
                    nk0 ({ GoMap.get ctm.m nk0 with prev := lastKey mid f })) f
                with prev := k }))
          k { prev := k, next := f, timestamp := t }),
        first := k, last := ctm.last } := by
    unfold updateTimeMap
    rw [if_neg hne, hk1]
    simp [hcf, hcl, hfirst, hfk, GoMap.get]
  rw [hu]
  set M1 := GoMap.insert ctm.m (lastKey mid f)
      ({ GoMap.get ctm.m (lastKey mid f) with next := nk0 }) with hM1
  set M2 := GoMap.insert M1 nk0
      ({ GoMap.get ctm.m nk0 with prev := lastKey mid f }) with hM2
  set M3 := GoMap.insert M2 f ({ GoMap.get M2 f with prev := k }) with hM3
  set M4 := GoMap.insert M3 k { prev := k, next := f, timestamp := t } with hM4
  have hnkk : nk0 ≠ k := fun hh => hknk hh.symm
  have hnkf : nk0 ≠ f := fun hh => hfnk hh.symm
  have hfk2 : f ≠ k := hfk
  -- lookups through the four-stage map
  have hm1nk : GoMap.find? M1 nk0 = GoMap.find? ctm.m nk0 := by
    rw [hM1]
    exact GoMap.find?_insert_ne _ _ _ _ hnkpK
  have hm2f : GoMap.find? M2 f = GoMap.find? M1 f := by
    rw [hM2]
    exact GoMap.find?_insert_ne _ _ _ _ hfnk
  have hm3f : GoMap.find? M3 f = some ({ GoMap.get M2 f with prev := k }) := by
    rw [hM3]
    exact GoMap.find?_insert_self _ _ _
  have hm4f : GoMap.find? M4 f = some ({ GoMap.get M2 f with prev := k }) := by
    rw [hM4, GoMap.find?_insert_ne _ _ _ _ hfk2]
    exact hm3f
  have hm4k : GoMap.find? M4 k = some { prev := k, next := f, timestamp := t } := by
    rw [hM4]
    exact GoMap.find?_insert_self _ _ _
  have hm4nk : GoMap.find? M4 nk0 =
      some ({ GoMap.get ctm.m nk0 with prev := lastKey mid f }) := by
    rw [hM4, GoMap.find?_insert_ne _ _ _ _ hnkk, hM3,
      GoMap.find?_insert_ne _ _ _ _ hnkf, hM2]
    exact GoMap.find?_insert_self _ _ _
  have hm4other : ∀ x : K, x ≠ k → x ≠ f → x ≠ nk0 → x ≠ lastKey mid f →
      GoMap.find? M4 x = GoMap.find? ctm.m x := by
    intro x hxk hxf hxnk hxpK
    rw [hM4, GoMap.find?_insert_ne _ _ _ _ hxk, hM3,
      GoMap.find?_insert_ne _ _ _ _ hxf, hM2,
      GoMap.find?_insert_ne _ _ _ _ hxnk, hM1,
      GoMap.find?_insert_ne _ _ _ _ hxpK]
  have hgetm2f_nil : mid = [] → GoMap.get M2 f =
      { prev := f, next := nk0, timestamp := tf } := by
    intro hmid
    have h1 : GoMap.find? M1 f = some ({ GoMap.get ctm.m f with next := nk0 }) := by
      rw [hM1, hmid]
      simp only [lastKey_nil]
      exact GoMap.find?_insert_self _ _ _
    rw [hmid] at hf1x
    simp only [headKey_nil] at hf1x
    simp only [GoMap.get, hm2f, h1, Option.getD_some, hf1x]
  have hgetm2f_cons : mid ≠ [] → GoMap.get M2 f =
      { prev := f, next := headKey mid k, timestamp := tf } := by
    intro hmid
    have hfpK : f ≠ lastKey mid f := fun hh =>
      hfmid (hh ▸ (by simpa [keysOf] using lastKey_mem mid hmid f))
    have h1 : GoMap.find? M1 f = GoMap.find? ctm.m f := by
      rw [hM1]
      exact GoMap.find?_insert_ne _ _ _ _ hfpK
    simp only [GoMap.get, hm2f, h1, hf1x, Option.getD_some]
  have hs1 : (GoMap.find? ctm.m (lastKey mid f)).isSome := by
    rcases hpKin with hp | hp
    · rw [hp, hf1x]
      rfl
    · refine (h.closed _).mpr ?_
      rw [keysOf]
      simp only [List.map_cons, List.map_append, List.mem_cons, List.mem_append]
      right
      left
      exact hp
  have hs2 : (GoMap.find? M1 nk0).isSome := by
    rw [hm1nk, hnk1]
    rfl
  have hs3 : (GoMap.find? M2 f).isSome := by
    by_cases hmid : mid = []
    · have h1 : GoMap.find? M1 f = some ({ GoMap.get ctm.m f with next := nk0 }) := by
        rw [hM1, hmid]
        simp only [lastKey_nil]
        exact GoMap.find?_insert_self _ _ _
      rw [hm2f, h1]
      rfl
    · have hfpK : f ≠ lastKey mid f := fun hh =>
        hfmid (hh ▸ (by simpa [keysOf] using lastKey_mem mid hmid f))
      rw [hm2f, hM1, GoMap.find?_insert_ne _ _ _ _ hfpK, hf1x]
      rfl
  have hs4 : (GoMap.find? M3 k).isSome := by
    rw [hM3, GoMap.find?_insert_ne _ _ _ _ hkf, hM2,
      GoMap.find?_insert_ne _ _ _ _ hknk, hM1,
      GoMap.find?_insert_ne _ _ _ _ hkpK, hk1]
    rfl
  refine ⟨?_, ?_, ?_, ?_, rfl, ?_, ?_⟩
  · rw [hM4, hM3, hM2, hM1]
    exact GoMap.WF_insert _ _ _ (GoMap.WF_insert _ _ _
      (GoMap.WF_insert _ _ _ (GoMap.WF_insert _ _ _ h.wf)))
  · rw [keysOf]
    simp only [List.map_cons, List.map_append]
    rw [List.nodup_cons]
    refine ⟨?_, ?_⟩
    · simp only [List.mem_cons, List.mem_append, not_or]
      exact ⟨hkf, hkmid, hknk, hkrest2⟩
    rw [List.nodup_cons]
    refine ⟨?_, ?_⟩
    · simp only [List.mem_append, List.mem_cons, not_or]
      exact ⟨hfmid, hfnk, hfrest2⟩
    rw [List.nodup_append]
    refine ⟨hmidnd, List.nodup_cons.mpr ⟨hnknotin, hrest2nd⟩, ?_⟩
    intro x hx hx2
    rcases List.mem_cons.mp hx2 with hh | hh
    · exact hnkmid (hh ▸ hx)
    · exact hdisj hx (by simp [hh])
  · intro x
    by_cases hxk : x = k
    · subst hxk
      constructor
      · intro _
        rw [keysOf]
        simp
      · intro _
        rw [hM4]
        simp [GoMap.find?_insert_self]
    · have hx4 : GoMap.find? M4 x = GoMap.find? M3 x := by
        rw [hM4]
        exact GoMap.find?_insert_ne _ _ _ _ hxk
      by_cases hxf : x = f
      · subst hxf
        constructor
        · intro _
          rw [keysOf]
          simp
        · intro _
          rw [hx4, hm3f]
          rfl
      · by_cases hxnk : x = nk0
        · subst hxnk
          constructor
          · intro _
            rw [keysOf]
            simp
          · intro _
            rw [hx4, hM3, GoMap.find?_insert_ne _ _ _ _ hnkf, hM2,
              GoMap.find?_insert_self]
            rfl
        · by_cases hxpK : x = lastKey mid f
          · subst hxpK
            have hxmem : lastKey mid f ∈ List.map Prod.fst mid := by
              rcases hpKin with hp | hp
              · exact absurd hp hxf
              · exact hp
            constructor
            · intro _
              rw [keysOf]
              simp only [List.map_cons, List.map_append, List.mem_cons, List.mem_append]
              right
              right
              left
              exact hxmem
            · intro _
              rw [hx4, hM3, GoMap.find?_insert_ne _ _ _ _ hxf, hM2,
                GoMap.find?_insert_ne _ _ _ _ hxnk, hM1, GoMap.find?_insert_self]
              rfl
          · rw [hx4, hM3, GoMap.find?_insert_ne _ _ _ _ hxf, hM2,
              GoMap.find?_insert_ne _ _ _ _ hxnk, hM1,
              GoMap.find?_insert_ne _ _ _ _ hxpK]
            have hcl2 := h.closed x
            rw [keysOf] at hcl2 ⊢
            simp only [List.map_cons, List.map_append, List.mem_cons,
              List.mem_append] at hcl2 ⊢
            simp only [hxk, hxf, hxnk, false_or, or_false] at hcl2 ⊢
            rw [hcl2]
  · rw [hM4, GoMap.size_insert_of_isSome _ _ _ hs4,
      hM3, GoMap.size_insert_of_isSome _ _ _ hs3,
      hM2, GoMap.size_insert_of_isSome _ _ _ hs2,
      hM1, GoMap.size_insert_of_isSome _ _ _ hs1, h.sizeEq]
    simp only [List.length_cons, List.length_append]
    omega
  · simpa [lastKey_cons, lastKey_nil, lastKey_append] using hlastlk
  · simp only [chainN, headKey_cons, lastKey_cons, lastKey_append, headKey_append]
    refine ⟨?_, ?_, ?_⟩
    · rw [hm4k]
    · rw [hm4f]
      by_cases hmid : mid = []
      · rw [hgetm2f_nil hmid, hmid]
        simp [headKey_nil, headKey_cons]
      · rw [hgetm2f_cons hmid, headKey_irrel mid hmid nk0 k]
    · refine (chainN_append M4 f (lastKey rest2 nk0) mid ((nk0, tn) :: rest2)).mpr ⟨?_, ?_⟩
      · simp only [headKey_cons]
        by_cases hmid : mid = []
        · subst hmid
          trivial
        · have hfpK : f ≠ lastKey mid f := fun hh =>
            hfmid (hh ▸ (by simpa [keysOf] using lastKey_mem mid hmid f))
          refine chainN_retarget ctm.m M4 k nk0 mid hmidnd f hmidchain ?_ ?_
          · intro x hx hxl
            have hxk2 : x ≠ k := fun hh => hkmid (hh ▸ hx)
            have hxf2 : x ≠ f := fun hh => hfmid (hh ▸ hx)
            have hxnk2 : x ≠ nk0 := fun hh => hnkmid (hh ▸ hx)
            exact hm4other x hxk2 hxf2 hxnk2 hxl
          · intro e he
            rw [hM4, GoMap.find?_insert_ne _ _ _ _ (Ne.symm hkpK), hM3,
              GoMap.find?_insert_ne _ _ _ _ (Ne.symm hfpK), hM2,
              GoMap.find?_insert_ne _ _ _ _ (Ne.symm hnkpK), hM1,
              GoMap.find?_insert_self]
            simp [GoMap.get, he]
      · refine ⟨?_, ?_⟩
        · rw [hm4nk]
          simp [GoMap.get, hnk1]
        · refine chainN_congr ctm.m M4 _ rest2 ?_ nk0 hrest3
          intro x hx
          have hxk2 : x ≠ k := fun hh => hkrest2 (hh ▸ hx)
          have hxf2 : x ≠ f := fun hh => hfrest2 (hh ▸ hx)
          have hxnk2 : x ≠ nk0 := fun hh => hnknotin (hh ▸ hx)
          have hxpK2 : x ≠ lastKey mid f := fun hh => hpKrest2 (hh ▸ hx)
          exact hm4other x hxk2 hxf2 hxnk2 hxpK2

/-- Master preservation lemma for `updateTimeMap`: touching key `k` at
time `t` moves it to the head of the abstract list. -/
theorem updateTimeMap_rep (ctm : cacheTimeMap K) (l : List (K × Int)) (k : K) (t : Int)
    (h : CtmRep ctm l) :
    CtmRep (updateTimeMap ctm k t) ((k, t) :: eraseKey k l) := by
  by_cases hmem : k ∈ keysOf l
  · obtain ⟨l1, tk, l2, rfl⟩ := exists_split_of_mem_keysOf l k hmem
    have hnd := h.nodup
    rw [keysOf] at hnd
    simp only [List.map_append, List.map_cons] at hnd
    rw [List.nodup_append] at hnd
    obtain ⟨hnd1, hnd2, hdisj⟩ := hnd
    rw [List.nodup_cons] at hnd2
    have hkl1 : k ∉ List.map Prod.fst l1 := fun hx => hdisj hx (by simp)
    have hkl2 : k ∉ List.map Prod.fst l2 := hnd2.1
    have herase : eraseKey k (l1 ++ (k, tk) :: l2) = l1 ++ l2 := by
      rw [eraseKey_append, eraseKey_of_not_mem k l1 hkl1]
      simp only [eraseKey, eq_self_iff_true, if_true]
      rw [eraseKey_of_not_mem k l2 hkl2]
    rw [herase]
    cases l1 with
    | nil =>
      simpa using updateTimeMap_rep_head ctm k t tk l2 (by simpa using h)
    | cons q l1x =>
      obtain ⟨f, tf⟩ := q
      have hkf : k ≠ f := by
        intro hh
        exact hkl1 (by simp [hh])
      cases l2 with
      | nil =>
        simpa using updateTimeMap_rep_last ctm k f t tk tf l1x (by simpa using h) hkf
      | cons q2 rest2 =>
        obtain ⟨nk0, tn⟩ := q2
        simpa using
          updateTimeMap_rep_mid ctm k f nk0 t tk tf tn l1x rest2 (by simpa using h) hkf
  · by_cases hl : l = []
    · subst hl
      simpa using updateTimeMap_rep_nil ctm k t h
    · rw [eraseKey_of_not_mem k l hmem]
      exact updateTimeMap_rep_new ctm k t l h hl hmem

/-- `removeOldest` on an empty well-formed index is the identity,
returning the sentinel key. -/
theorem removeOldest_rep_nil (ctm : cacheTimeMap K) (h : CtmRep ctm []) :
    removeOldest ctm = (ctm, default) := by
  have hm : GoMap.size ctm.m = 0 := by
    rw [h.sizeEq]
    rfl
  have hf : ctm.first = default := by simpa [headKey_nil] using h.first_eq
  have hl : ctm.last = default := by simpa [lastKey_nil] using h.last_eq
  obtain ⟨mm, ff, ll⟩ := ctm
  simp only at hf hl hm
  subst hf
  subst hl
  unfold removeOldest
  simp [hm]

/-- Master preservation lemma for `removeOldest` on a nonempty index:
the last key is removed and returned. -/
theorem removeOldest_rep (ctm : cacheTimeMap K) (init : List (K × Int)) (lk : K) (lt : Int)
    (h : CtmRep ctm (init ++ [(lk, lt)])) :
    (removeOldest ctm).2 = lk ∧ CtmRep (removeOldest ctm).1 init := by
  have hne : GoMap.size ctm.m ≠ 0 := by
    rw [h.sizeEq]
    simp
  have hnd := h.nodup
  rw [keysOf] at hnd
  simp only [List.map_append, List.map_cons, List.map_nil] at hnd
  rw [List.nodup_append] at hnd
  obtain ⟨hinitnd, -, hdisj⟩ := hnd
  have hlkinit : lk ∉ List.map Prod.fst init := fun hx => hdisj hx (by simp)
  have hlast : ctm.last = lk := by
    simpa [lastKey_cons, lastKey_nil, lastKey_append] using h.last_eq
  have hlk2 : chainN ctm.m (headKey init lk) (init ++ [(lk, lt)]) lk := by
    have hl0 := h.link
    simp only [lastKey_cons, lastKey_nil, lastKey_append, headKey_append,
      headKey_cons, headKey_nil] at hl0
    cases init with
    | nil => simpa [headKey_nil] using hl0
    | cons q initx =>
      obtain ⟨a, b⟩ := q
      simpa [headKey_cons] using hl0
  have hsplit := (chainN_append ctm.m (headKey init lk) lk init [(lk, lt)]).mp hlk2
  have hinitchain : chainN ctm.m (headKey init lk) init lk := by
    simpa [headKey_cons] using hsplit.1
  have hlk1 : GoMap.find? ctm.m lk =
      some { prev := lastKey init (headKey init lk), next := lk, timestamp := lt } := by
    have hx := hsplit.2
    simp only [chainN, headKey_nil] at hx
    exact hx.1
  cases init with
  | nil =>
    -- the single-element index empties out
    simp only [headKey_nil, lastKey_nil] at hlk1
    have h1 : GoMap.size (GoMap.insert ctm.m lk
        { prev := lk, next := lk, timestamp := lt }) = 1 := by
      rw [GoMap.size_insert_of_isSome _ _ _ (by rw [hlk1]; rfl), h.sizeEq]
      rfl
    have h2 := GoMap.size_erase_of_mem (GoMap.insert ctm.m lk
        { prev := lk, next := lk, timestamp := lt }) lk
      (GoMap.WF_insert _ _ _ h.wf) (by rw [GoMap.find?_insert_self]; rfl)
    have hsz : GoMap.size (GoMap.erase (GoMap.insert ctm.m lk
        { prev := lk, next := lk, timestamp := lt }) lk) = 0 := by omega
    have hres : removeOldest ctm =
        ({ m := GoMap.erase (GoMap.insert ctm.m lk
              { prev := lk, next := lk, timestamp := lt }) lk,
           first := default, last := default }, lk) := by
      unfold removeOldest
      rw [if_neg hne]
      simp only [hlast, GoMap.get, hlk1, Option.getD_some]
      simp [hsz]
    have hm0 : GoMap.erase (GoMap.insert ctm.m lk
        { prev := lk, next := lk, timestamp := lt }) lk = [] :=
      List.length_eq_zero.mp hsz
    rw [hres]
    refine ⟨rfl, ?_, ?_, ?_, ?_, rfl, rfl, trivial⟩
    · exact GoMap.WF_erase _ _ (GoMap.WF_insert _ _ _ h.wf)
    · simp [keysOf]
    · intro x
      rw [hm0]
      simp [GoMap.find?, keysOf]
    · rw [hm0]
      rfl
  | cons q initx =>
    obtain ⟨f0, t0⟩ := q
    simp only [headKey_cons] at hinitchain hlk1
    have hpk : lastKey ((f0, t0) :: initx) f0 = lastKey initx f0 := rfl
    have hpkmem : lastKey initx f0 ∈ List.map Prod.fst ((f0, t0) :: initx) := by
      simpa [keysOf] using lastKey_mem ((f0, t0) :: initx) (by simp) f0
    have hpklk : lastKey initx f0 ≠ lk := by
      intro hh
      exact hlkinit (hh ▸ hpkmem)
    have hlkpk : lk ≠ lastKey initx f0 := fun hh => hpklk hh.symm
    have hfirst : ctm.first = f0 := by
      simpa [headKey_cons, headKey_append] using h.first_eq
    have hs1 : (GoMap.find? ctm.m (lastKey initx f0)).isSome := by
      refine (h.closed _).mpr ?_
      rw [keysOf]
      simp only [List.map_append, List.map_cons, List.mem_append]
      exact Or.inl hpkmem
    have hsz1 : GoMap.size (GoMap.insert ctm.m (lastKey initx f0)
        ({ GoMap.get ctm.m (lastKey initx f0) with next := lastKey initx f0 }))
        = GoMap.size ctm.m := GoMap.size_insert_of_isSome _ _ _ hs1
    have hfind1lk : GoMap.find? (GoMap.insert ctm.m (lastKey initx f0)
        ({ GoMap.get ctm.m (lastKey initx f0) with next := lastKey initx f0 })) lk
        = GoMap.find? ctm.m lk :=
      GoMap.find?_insert_ne _ _ _ _ hlkpk
    have hsz2 : GoMap.size (GoMap.erase (GoMap.insert ctm.m (lastKey initx f0)
        ({ GoMap.get ctm.m (lastKey initx f0) with next := lastKey initx f0 })) lk) + 1
        = GoMap.size ctm.m := by
      rw [← hsz1]
      exact GoMap.size_erase_of_mem _ _ (GoMap.WF_insert _ _ _ h.wf)
        (by rw [hfind1lk, hlk1]; rfl)
    have hm2ne : ¬ (GoMap.size (GoMap.erase (GoMap.insert ctm.m (lastKey initx f0)
        ({ GoMap.get ctm.m (lastKey initx f0) with next := lastKey initx f0 })) lk) = 0) := by
      have h3 := h.sizeEq
      simp only [List.length_append, List.length_cons] at h3
      omega
    have hres : removeOldest ctm =
        ({ m := GoMap.erase (GoMap.insert ctm.m (lastKey initx f0)
              ({ GoMap.get ctm.m (lastKey initx f0) with next := lastKey initx f0 })) lk,
           first := ctm.first, last := lastKey initx f0 }, lk) := by
      have hgetlk : GoMap.get ctm.m lk =
          { prev := lastKey initx f0, next := lk, timestamp := lt } := by
        simp [GoMap.get, hlk1, hpk]
      unfold removeOldest
      rw [if_neg hne]
      simp only [hlast, hgetlk]
      simp [hm2ne, hpk]
    have hothers : ∀ x : K, x ≠ lk → x ≠ lastKey initx f0 →
        GoMap.find? (GoMap.erase (GoMap.insert ctm.m (lastKey initx f0)
          ({ GoMap.get ctm.m (lastKey initx f0) with next := lastKey initx f0 })) lk) x
        = GoMap.find? ctm.m x := by
      intro x hxlk hxpk
      rw [GoMap.find?_erase_ne _ _ _ hxlk, GoMap.find?_insert_ne _ _ _ _ hxpk]
    have hres2 : (removeOldest ctm).1 =
        { m := GoMap.erase (GoMap.insert ctm.m (lastKey initx f0)
              ({ GoMap.get ctm.m (lastKey initx f0) with next := lastKey initx f0 })) lk,
          first := ctm.first, last := lastKey initx f0 } := by
      rw [hres]
    refine ⟨by rw [hres], ?_⟩
    rw [hres2]
    refine ⟨?_, hinitnd, ?_, ?_, ?_, ?_, ?_⟩
    · exact GoMap.WF_erase _ _ (GoMap.WF_insert _ _ _ h.wf)
    · intro x
      by_cases hxlk : x = lk
      · subst hxlk
        rw [GoMap.find?_erase_self]
        simp only [Option.isSome_none, Bool.false_eq_true, false_iff]
        intro hx
        exact hlkinit (by simpa [keysOf] using hx)
      · rw [GoMap.find?_erase_ne _ _ _ hxlk]
        by_cases hxpk : x = lastKey initx f0
        · subst hxpk
          rw [GoMap.find?_insert_self]
          simp only [Option.isSome_some, true_iff]
          simpa [keysOf] using hpkmem
        · rw [GoMap.find?_insert_ne _ _ _ _ hxpk]
          have hcl := h.closed x
          rw [keysOf] at hcl ⊢
          simp only [List.map_append, List.map_cons, List.map_nil, List.mem_append,
            List.mem_cons, List.not_mem_nil, or_false] at hcl ⊢
          rw [hcl]
          constructor
          · intro hx
            tauto
          · intro hx
            tauto
    · have h3 := h.sizeEq
      have h4 := hsz2
      simp only [List.length_append, List.length_cons, List.length_nil] at h3 h4 ⊢
      omega
    · rw [hfirst, headKey_cons]
    · rfl
    · refine chainN_retarget ctm.m _ lk (lastKey initx f0) ((f0, t0) :: initx)
        hinitnd f0 hinitchain ?_ ?_
      · intro x hx hxl
        have hxlk : x ≠ lk := fun hh => hlkinit (hh ▸ hx)
        exact hothers x hxlk hxl
      · intro e he
        simp only [lastKey_cons] at he ⊢
        rw [GoMap.find?_erase_ne _ _ _ hpklk, GoMap.find?_insert_self]
        simp [GoMap.get, he]

/- Further structural helper lemmas used by the loop and cache-level
specifications. -/

theorem rep_nil (K : Type) [DecidableEq K] [Inhabited K] :
    CtmRep (newCacheTimeMap K) [] := by
  refine ⟨?_, ?_, ?_, rfl, rfl, rfl, trivial⟩
  · exact List.nodup_nil
  · exact List.nodup_nil
  · intro x
    simp [newCacheTimeMap, GoMap.find?, keysOf]

theorem exists_concat_of_ne_nil (l : List (K × Int)) (h : l ≠ []) :
    ∃ init lk lt, l = init ++ [(lk, lt)] := by
  rcases List.eq_nil_or_concat l with h0 | ⟨L, b, hb⟩
  · exact absurd h0 h
  · obtain ⟨lk, lt⟩ := b
    exact ⟨L, lk, lt, by rw [hb, List.concat_eq_append]⟩

theorem eraseKey_sublist (k : K) (l : List (K × Int)) :
    List.Sublist (eraseKey k l) l := by
  induction l with
  | nil => exact List.Sublist.refl []
  | cons p rest ih =>
    obtain ⟨a, b⟩ := p
    by_cases h : a = k
    · simp only [eraseKey, if_pos h]
      exact ih.cons (a, b)
    · simp only [eraseKey, if_neg h]
      exact ih.cons₂ (a, b)

theorem keysOf_eraseKey_subset (k x : K) (l : List (K × Int))
    (h : x ∈ keysOf (eraseKey k l)) : x ∈ keysOf l :=
  ((eraseKey_sublist k l).map Prod.fst).subset h

theorem mem_keysOf_eraseKey (k x : K) (l : List (K × Int)) (hx : x ∈ keysOf l)
    (hne : x ≠ k) : x ∈ keysOf (eraseKey k l) := by
  induction l with
  | nil => simpa [keysOf] using hx
  | cons p rest ih =>
    obtain ⟨a, b⟩ := p
    simp only [keysOf, List.map_cons, List.mem_cons] at hx
    by_cases h : a = k
    · simp only [eraseKey, if_pos h]
      rcases hx with h1 | h1
      · exact absurd (h ▸ h1) hne
      · exact ih h1
    · simp only [eraseKey, if_neg h, keysOf, List.map_cons, List.mem_cons]
      rcases hx with h1 | h1
      · exact Or.inl h1
      · exact Or.inr (ih h1)

theorem mem_keysOf_exists (l : List (K × Int)) (x : K) (h : x ∈ keysOf l) :
    ∃ ts : Int, (x, ts) ∈ l := by
  rw [keysOf] at h
  obtain ⟨p, hp, he⟩ := List.mem_map.mp h
  obtain ⟨a, b⟩ := p
  cases he
  exact ⟨b, hp⟩

theorem mem_keysOf_of_mem (l : List (K × Int)) (p : K × Int) (h : p ∈ l) :
    p.1 ∈ keysOf l := List.mem_map.mpr ⟨p, h, rfl⟩

theorem lastTs_mem (l : List (K × Int)) (hl : l ≠ []) (d : Int) :
    ∃ q ∈ l, q.2 = lastTs l d := by
  induction l generalizing d with
  | nil => exact absurd rfl hl
  | cons p rest ih =>
    obtain ⟨a, b⟩ := p
    by_cases hr : rest = []
    · subst hr
      exact ⟨(a, b), by simp, rfl⟩
    · obtain ⟨q, hq, hq2⟩ := ih hr b
      exact ⟨q, by simp [hq], by simpa [lastTs_cons] using hq2⟩

theorem lastTs_min (l : List (K × Int))
    (hs : List.Pairwise (fun a b : K × Int => b.2 ≤ a.2) l)
    (p : K × Int) (hp : p ∈ l) : lastTs l 0 ≤ p.2 := by
  induction l with
  | nil => simp at hp
  | cons q rest ih =>
    obtain ⟨a, b⟩ := q
    rw [List.pairwise_cons] at hs
    by_cases hr : rest = []
    · subst hr
      simp only [List.mem_singleton] at hp
      subst hp
      simp [lastTs_cons, lastTs_nil]
    · rw [lastTs_cons]
      have hlt : lastTs rest b = lastTs rest 0 := lastTs_irrel rest hr b 0
      rcases List.mem_cons.mp hp with hh | hh
      · subst hh
        obtain ⟨q2, hq2, hq2e⟩ := lastTs_mem rest hr 0
        rw [hlt, ← hq2e]
        exact hs.1 q2 hq2
      · rw [hlt]
        exact ih hs.2 hh

/-- On a nonempty abstract list the index's `last` key is the last
listed key, whose node record carries the last listed timestamp. -/
theorem rep_last_entry (ctm : cacheTimeMap K) (init : List (K × Int)) (lk : K) (lt : Int)
    (h : CtmRep ctm (init ++ [(lk, lt)])) :
    ctm.last = lk ∧
      ∃ e : cacheKey K, GoMap.find? ctm.m lk = some e ∧ e.timestamp = lt := by
  have hlast : ctm.last = lk := by
    simpa [lastKey_cons, lastKey_nil, lastKey_append] using h.last_eq
  have hlk2 := h.link
  rw [chainN_append] at hlk2
  have hx := hlk2.2
  simp only [chainN] at hx
  exact ⟨hlast, _, hx.1, rfl⟩

theorem sinceOldest_rep (ctm : cacheTimeMap K) (init : List (K × Int)) (lk : K) (lt : Int)
    (h : CtmRep ctm (init ++ [(lk, lt)])) (now : Int) :
    sinceOldest ctm now = now - lt := by
  obtain ⟨hlast, e, he, hts⟩ := rep_last_entry ctm init lk lt h
  have hne : GoMap.size ctm.m ≠ 0 := by
    rw [h.sizeEq]
    simp
  unfold sinceOldest
  rw [if_neg hne, hlast]
  simp [GoMap.get, he, hts]

theorem lastTs_concat (init : List (K × Int)) (lk : K) (lt : Int) (d : Int) :
    lastTs (init ++ [(lk, lt)]) d = lt := by
  rw [lastTs_append]
  rfl

/-- Every listed pair has a node record carrying its timestamp. -/
theorem rep_lookup_ts (ctm : cacheTimeMap K) (l : List (K × Int))
    (h : CtmRep ctm l) (x : K) (ts : Int) (hmem : (x, ts) ∈ l) :
    ∃ e : cacheKey K, GoMap.find? ctm.m x = some e ∧ e.timestamp = ts := by
  obtain ⟨l1, l2, rfl⟩ := List.append_of_mem hmem
  have hlk := h.link
  rw [chainN_append] at hlk
  have hx := hlk.2
  simp only [chainN] at hx
  exact ⟨_, hx.1, rfl⟩

theorem find?_eq_none_of_size_zero (m : List (K × V)) (h : GoMap.size m = 0) (x : K) :
    GoMap.find? m x = none := by
  have hm : m = [] := List.length_eq_zero.mp h
  subst hm
  rfl

theorem size_zero_of_no_keys (m : List (K × V))
    (h : ∀ x : K, ¬(GoMap.find? m x).isSome) : GoMap.size m = 0 := by
  cases m with
  | nil => rfl
  | cons p rest =>
    obtain ⟨a, b⟩ := p
    exact absurd (by simp [GoMap.find?]) (h a)

theorem size_le_of_keys_subset (m : List (K × V)) (ks : List K)
    (hwf : GoMap.WF m) (hnd : ks.Nodup)
    (hsub : ∀ x : K, (GoMap.find? m x).isSome → x ∈ ks) :
    GoMap.size m ≤ ks.length := by
  have hsub2 : GoMap.keyList m ⊆ ks := by
    intro x hx
    exact hsub x ((GoMap.isSome_find?_iff_mem_keyList m x).mpr hx)
  have hle := (List.subperm_of_subset hwf hsub2).length_le
  simpa [GoMap.size, GoMap.keyList] using hle

theorem size_eq_of_keys_iff (m : List (K × V)) (ks : List K)
    (hwf : GoMap.WF m) (hnd : ks.Nodup)
    (hiff : ∀ x : K, (GoMap.find? m x).isSome ↔ x ∈ ks) :
    GoMap.size m = ks.length := by
  have h1 : ∀ x : K, x ∈ GoMap.keyList m ↔ x ∈ ks := fun x =>
    ((GoMap.isSome_find?_iff_mem_keyList m x).symm.trans (hiff x))
  have hperm := (List.perm_ext_iff_of_nodup hwf hnd).mpr h1
  simpa [GoMap.size, GoMap.keyList] using hperm.length_eq

theorem TsOK_touch (l : List (K × Int)) (τ now : Int) (k : K)
    (h : TsOK l τ) (hτ : τ ≤ now) : TsOK ((k, now) :: eraseKey k l) now := by
  obtain ⟨hp, hb⟩ := h
  refine ⟨List.pairwise_cons.mpr ⟨?_, hp.sublist (eraseKey_sublist k l)⟩, ?_⟩
  · intro p hp2
    exact le_trans (hb p ((eraseKey_sublist k l).subset hp2)) hτ
  · intro p hp2
    rcases List.mem_cons.mp hp2 with h1 | h1
    · subst h1
      exact le_refl now
    · exact le_trans (hb p ((eraseKey_sublist k l).subset h1)) hτ

theorem TsOK_of_append (l2 d : List (K × Int)) (τ : Int) (h : TsOK (l2 ++ d) τ) :
    TsOK l2 τ :=
  ⟨h.1.sublist (List.sublist_append_left l2 d), fun p hp => h.2 p (List.mem_append_left d hp)⟩

/-- Walking the `next` pointers through a chained segment visits
exactly its keys, whatever key closes the segment. -/
theorem ctmWalk_chain (ctm : cacheTimeMap K) (nk : K) :
    ∀ (l : List (K × Int)) (p : K), chainN ctm.m p l nk →
      ∀ d : K, ctmWalk ctm l.length (headKey l d) = keysOf l := by
  intro l
  induction l with
  | nil =>
    intro p _ d
    rfl
  | cons q rest ih =>
    obtain ⟨k, t⟩ := q
    intro p hch d
    obtain ⟨h1, h2⟩ := hch
    have hget : GoMap.get ctm.m k = { prev := p, next := headKey rest nk, timestamp := t } := by
      simp [GoMap.get, h1]
    simp only [List.length_cons, ctmWalk, headKey_cons, hget, keysOf, List.map_cons]
    have := ih k h2 nk
    rw [keysOf] at this
    exact congrArg (k :: ·) this

theorem keysOf_getLast? (l : List (K × Int)) (hl : l ≠ []) (d : K) :
    (keysOf l).getLast? = some (lastKey l d) := by
  induction l generalizing d with
  | nil => exact absurd rfl hl
  | cons p rest ih =>
    obtain ⟨a, b⟩ := p
    cases rest with
    | nil => rfl
    | cons q rest2 =>
      rw [lastKey_cons]
      obtain ⟨a2, b2⟩ := q
      have h2 := ih (by simp) a
      simp only [keysOf, List.map_cons] at h2 ⊢
      rw [List.getLast?_cons_cons]
      exact h2

theorem ageLoop_succ {V : Type} (fuel : Nat) (m : List (K × V)) (keys : cacheTimeMap K)
    (now maxAge : Int) :
    ageLoop (fuel + 1) m keys now maxAge =
      if sinceOldest keys now < maxAge then (m, keys)
      else
        if GoMap.size (GoMap.erase m (removeOldest keys).2) = 0 then
          (GoMap.erase m (removeOldest keys).2, (removeOldest keys).1)
        else ageLoop fuel (GoMap.erase m (removeOldest keys).2) (removeOldest keys).1 now maxAge :=
  rfl

theorem sizeLoop_succ {V : Type} (fuel : Nat) (m : List (K × V)) (keys : cacheTimeMap K)
    (maxSize : Int) :
    sizeLoop (fuel + 1) m keys maxSize =
      if (GoMap.size m : Int) > maxSize then
        sizeLoop fuel (GoMap.erase m (removeOldest keys).2) (removeOldest keys).1 maxSize
      else (m, keys) :=
  rfl

/-- Specification of the age-eviction loop: it removes a suffix of the
abstract list, survivors keep their value-map bindings, and on exit
either the value map is empty or the surviving tail is young enough;
the head survives whenever it is itself young enough. -/
theorem ageLoop_spec {V : Type} :
    ∀ (fuel : Nat) (m : List (K × V)) (keys : cacheTimeMap K) (l : List (K × Int))
      (now maxAge : Int),
      CtmRep keys l → GoMap.WF m →
      (∀ x : K, (GoMap.find? m x).isSome → x ∈ keysOf l) →
      0 < maxAge → l.length < fuel →
      ∃ l2 d, l = l2 ++ d ∧
        CtmRep (ageLoop fuel m keys now maxAge).2 l2 ∧
        GoMap.WF (ageLoop fuel m keys now maxAge).1 ∧
        (∀ x : K, (GoMap.find? (ageLoop fuel m keys now maxAge).1 x).isSome →
          x ∈ keysOf l2) ∧
        (∀ x : K, x ∈ keysOf l2 →
          GoMap.find? (ageLoop fuel m keys now maxAge).1 x = GoMap.find? m x) ∧
        (GoMap.size (ageLoop fuel m keys now maxAge).1 = 0 ∨ l2 = [] ∨
          now - lastTs l2 0 < maxAge) ∧
        (∀ (k0 : K) (tk0 : Int) (rest0 : List (K × Int)),
          l = (k0, tk0) :: rest0 → now - tk0 < maxAge → l2 ≠ []) := by
  intro fuel
  induction fuel with
  | zero =>
    intro m keys l now maxAge _ _ _ _ hfuel
    exact absurd hfuel (Nat.not_lt_zero _)
  | succ fuel ih =>
    intro m keys l now maxAge hrep hwf hsub hA hfuel
    rw [ageLoop_succ]
    by_cases hstop : sinceOldest keys now < maxAge
    · rw [if_pos hstop]
      refine ⟨l, [], by simp, hrep, hwf, hsub, fun x _ => rfl, ?_, ?_⟩
      · by_cases hl : l = []
        · exact Or.inr (Or.inl hl)
        · right
          right
          obtain ⟨init, lk, lt, hconcat⟩ := exists_concat_of_ne_nil l hl
          subst hconcat
          rw [lastTs_concat]
          have hsince := sinceOldest_rep keys init lk lt hrep now
          omega
      · intro k0 tk0 rest0 heq _
        rw [heq]
        simp
    · rw [if_neg hstop]
      have hlne : l ≠ [] := by
        intro hl
        subst hl
        have h0 : GoMap.size keys.m = 0 := by
          rw [hrep.sizeEq]
          rfl
        have hs0 : sinceOldest keys now = 0 := by
          unfold sinceOldest
          rw [if_pos h0]
        omega
      obtain ⟨init, lk, lt, hconcat⟩ := exists_concat_of_ne_nil l hlne
      subst hconcat
      obtain ⟨hr2, hrrep⟩ := removeOldest_rep keys init lk lt hrep
      rw [hr2]
      have hnd := hrep.nodup
      rw [keysOf_append, List.nodup_append] at hnd
      have hlkinit : lk ∉ keysOf init := fun hx => hnd.2.2 hx (by simp [keysOf])
      have hwf2 : GoMap.WF (GoMap.erase m lk) := GoMap.WF_erase m lk hwf
      have hsub2 : ∀ x : K, (GoMap.find? (GoMap.erase m lk) x).isSome →
          x ∈ keysOf init := by
        intro x hx
        by_cases hxlk : x = lk
        · subst hxlk
          rw [GoMap.find?_erase_self] at hx
          simp at hx
        · rw [GoMap.find?_erase_ne m lk x hxlk] at hx
          have hm := hsub x hx
          rw [keysOf_append] at hm
          rcases List.mem_append.mp hm with h1 | h1
          · exact h1
          · simp [keysOf] at h1
            exact absurd h1 hxlk
      have hpt2 : ∀ x : K, x ∈ keysOf init →
          GoMap.find? (GoMap.erase m lk) x = GoMap.find? m x := by
        intro x hx
        exact GoMap.find?_erase_ne m lk x (fun hh => hlkinit (hh ▸ hx))
      have hheadne : ∀ (k0 : K) (tk0 : Int) (rest0 : List (K × Int)),
          init ++ [(lk, lt)] = (k0, tk0) :: rest0 → now - tk0 < maxAge →
          init ≠ [] := by
        intro k0 tk0 rest0 heq hlt2 hinit
        subst hinit
        rw [List.nil_append] at heq
        injection heq with hpair hrest
        rw [Prod.mk.injEq] at hpair
        obtain ⟨h1, h2⟩ := hpair
        subst h2
        have hsince := sinceOldest_rep keys [] lk lt hrep now
        omega
      by_cases hz : GoMap.size (GoMap.erase m lk) = 0
      · rw [if_pos hz]
        exact ⟨init, [(lk, lt)], rfl, hrrep, hwf2, hsub2, hpt2, Or.inl hz, hheadne⟩
      · rw [if_neg hz]
        have hfuel2 : init.length < fuel := by
          rw [List.length_append] at hfuel
          simp at hfuel
          omega
        obtain ⟨l2, d2, hsplit2, hrep2, hwf3, hsub3, hpt3, hage, hhead⟩ :=
          ih (GoMap.erase m lk) (removeOldest keys).1 init now maxAge hrrep hwf2 hsub2
            hA hfuel2
        refine ⟨l2, d2 ++ [(lk, lt)], by rw [hsplit2, List.append_assoc], hrep2, hwf3,
          hsub3, ?_, hage, ?_⟩
        · intro x hx
          rw [hpt3 x hx]
          refine hpt2 x ?_
          rw [hsplit2, keysOf_append]
          exact List.mem_append_left _ hx
        · intro k0 tk0 rest0 heq hlt2
          have hinitne : init ≠ [] := hheadne k0 tk0 rest0 heq hlt2
          cases init with
          | nil => exact absurd rfl hinitne
          | cons q init2 =>
            obtain ⟨a, b⟩ := q
            rw [List.cons_append] at heq
            injection heq with hpair hrest
            rw [Prod.mk.injEq] at hpair
            obtain ⟨h1, h2⟩ := hpair
            subst h1
            subst h2
            exact hhead a b init2 rfl hlt2

/-- Specification of the size-eviction loop: it removes a suffix of the
abstract list, survivors keep their value-map bindings, and on exit the
value map fits the size bound; a nonempty list stays nonempty. -/
theorem sizeLoop_spec {V : Type} :
    ∀ (fuel : Nat) (m : List (K × V)) (keys : cacheTimeMap K) (l : List (K × Int))
      (maxSize : Int),
      CtmRep keys l → GoMap.WF m →
      (∀ x : K, (GoMap.find? m x).isSome → x ∈ keysOf l) →
      0 < maxSize → l.length < fuel →
      ∃ l2 d, l = l2 ++ d ∧
        CtmRep (sizeLoop fuel m keys maxSize).2 l2 ∧
        GoMap.WF (sizeLoop fuel m keys maxSize).1 ∧
        (∀ x : K, (GoMap.find? (sizeLoop fuel m keys maxSize).1 x).isSome →
          x ∈ keysOf l2) ∧
        (∀ x : K, x ∈ keysOf l2 →
          GoMap.find? (sizeLoop fuel m keys maxSize).1 x = GoMap.find? m x) ∧
        ((GoMap.size (sizeLoop fuel m keys maxSize).1 : Int) ≤ maxSize) ∧
        (l ≠ [] → l2 ≠ []) := by
  intro fuel
  induction fuel with
  | zero =>
    intro m keys l maxSize _ _ _ _ hfuel
    exact absurd hfuel (Nat.not_lt_zero _)
  | succ fuel ih =>
    intro m keys l maxSize hrep hwf hsub hS hfuel
    rw [sizeLoop_succ]
    by_cases hgt : (GoMap.size m : Int) > maxSize
    · rw [if_pos hgt]
      have hle : GoMap.size m ≤ (keysOf l).length :=
        size_le_of_keys_subset m (keysOf l) hwf hrep.nodup hsub
      have hlen : (keysOf l).length = l.length := by simp [keysOf]
      have hl2 : 2 ≤ l.length := by omega
      have hlne : l ≠ [] := by
        intro h0
        subst h0
        rw [List.length_nil] at hl2
        omega
      obtain ⟨init, lk, lt, hconcat⟩ := exists_concat_of_ne_nil l hlne
      subst hconcat
      obtain ⟨hr2, hrrep⟩ := removeOldest_rep keys init lk lt hrep
      rw [hr2]
      have hnd := hrep.nodup
      rw [keysOf_append, List.nodup_append] at hnd
      have hlkinit : lk ∉ keysOf init := fun hx => hnd.2.2 hx (by simp [keysOf])
      have hwf2 : GoMap.WF (GoMap.erase m lk) := GoMap.WF_erase m lk hwf
      have hsub2 : ∀ x : K, (GoMap.find? (GoMap.erase m lk) x).isSome →
          x ∈ keysOf init := by
        intro x hx
        by_cases hxlk : x = lk
        · subst hxlk
          rw [GoMap.find?_erase_self] at hx
          simp at hx
        · rw [GoMap.find?_erase_ne m lk x hxlk] at hx
          have hm := hsub x hx
          rw [keysOf_append] at hm
          rcases List.mem_append.mp hm with h1 | h1
          · exact h1
          · simp [keysOf] at h1
            exact absurd h1 hxlk
      have hpt2 : ∀ x : K, x ∈ keysOf init →
          GoMap.find? (GoMap.erase m lk) x = GoMap.find? m x := by
        intro x hx
        exact GoMap.find?_erase_ne m lk x (fun hh => hlkinit (hh ▸ hx))
      have hfuel2 : init.length < fuel := by
        rw [List.length_append] at hfuel
        simp at hfuel
        omega
      obtain ⟨l2, d2, hsplit2, hrep2, hwf3, hsub3, hpt3, hsz, hne2⟩ :=
        ih (GoMap.erase m lk) (removeOldest keys).1 init maxSize hrrep hwf2 hsub2
          hS hfuel2
      have hinitne : init ≠ [] := by
        intro h0
        subst h0
        rw [List.nil_append, List.length_singleton] at hl2
        omega
      refine ⟨l2, d2 ++ [(lk, lt)], by rw [hsplit2, List.append_assoc], hrep2, hwf3,
        hsub3, ?_, hsz, fun _ => hne2 hinitne⟩
      intro x hx
      rw [hpt3 x hx]
      refine hpt2 x ?_
      rw [hsplit2, keysOf_append]
      exact List.mem_append_left _ hx
    · rw [if_neg hgt]
      exact ⟨l, [], by simp, hrep, hwf, hsub, fun x _ => rfl,
        (by omega : (GoMap.size m : Int) ≤ maxSize), fun h => h⟩

theorem TsOK_mono (l : List (K × Int)) (τ τ2 : Int) (h : TsOK l τ) (hle : τ ≤ τ2) :
    TsOK l τ2 :=
  ⟨h.1, fun p hp => le_trans (h.2 p hp) hle⟩

theorem headKey_of_append_cons (l2 d rest : List (K × Int)) (a : K × Int) (dk : K)
    (h : a :: rest = l2 ++ d) (hne : l2 ≠ []) : headKey l2 dk = a.1 := by
  cases l2 with
  | nil => exact absurd rfl hne
  | cons p l2x =>
    obtain ⟨x, y⟩ := p
    rw [List.cons_append] at h
    injection h with h1 h2
    subst h1
    rfl

/-- The walk from `first` over `size` many `next` pointers reproduces
the abstract key list. -/
theorem rep_walk (ctm : cacheTimeMap K) (l : List (K × Int)) (h : CtmRep ctm l) :
    ctmWalk ctm (GoMap.size ctm.m) ctm.first = keysOf l := by
  have h1 := ctmWalk_chain ctm (lastKey l default) l (headKey l default) h.link default
  rw [h.sizeEq, h.first_eq]
  exact h1

/-- The (conditional) age pass of `lrwAge`/`lruAge`. -/
theorem agePhase_spec {V : Type} (m : List (K × V)) (keys : cacheTimeMap K)
    (l : List (K × Int)) (now maxAge : Int)
    (hrep : CtmRep keys l) (hwf : GoMap.WF m)
    (hsub : ∀ x : K, (GoMap.find? m x).isSome → x ∈ keysOf l) :
    ∃ l2 d, l = l2 ++ d ∧
      CtmRep (if maxAge > 0 then
          ageLoop (GoMap.size keys.m + 1) m keys now maxAge else (m, keys)).2 l2 ∧
      GoMap.WF (if maxAge > 0 then
          ageLoop (GoMap.size keys.m + 1) m keys now maxAge else (m, keys)).1 ∧
      (∀ x : K, (GoMap.find? (if maxAge > 0 then
          ageLoop (GoMap.size keys.m + 1) m keys now maxAge else (m, keys)).1 x).isSome →
        x ∈ keysOf l2) ∧
      (∀ x : K, x ∈ keysOf l2 →
        GoMap.find? (if maxAge > 0 then
          ageLoop (GoMap.size keys.m + 1) m keys now maxAge else (m, keys)).1 x =
          GoMap.find? m x) ∧
      (0 < maxAge →
        GoMap.size (if maxAge > 0 then
          ageLoop (GoMap.size keys.m + 1) m keys now maxAge else (m, keys)).1 = 0 ∨
        l2 = [] ∨ now - lastTs l2 0 < maxAge) ∧
      (∀ (k0 : K) (tk0 : Int) (rest0 : List (K × Int)),
        l = (k0, tk0) :: rest0 → (0 < maxAge → now - tk0 < maxAge) → l2 ≠ []) := by
  by_cases hA : maxAge > 0
  · rw [if_pos hA]
    have hfuel : l.length < GoMap.size keys.m + 1 := by
      rw [hrep.sizeEq]
      omega
    obtain ⟨l2, d, hsplit, hrep2, hwf2, hsub2, hpt2, hage, hhead⟩ :=
      ageLoop_spec (GoMap.size keys.m + 1) m keys l now maxAge hrep hwf hsub hA hfuel
    exact ⟨l2, d, hsplit, hrep2, hwf2, hsub2, hpt2, fun _ => hage,
      fun k0 tk0 rest0 heq hc => hhead k0 tk0 rest0 heq (hc hA)⟩
  · rw [if_neg hA]
    refine ⟨l, [], by simp, hrep, hwf, hsub, fun x _ => rfl, fun h0 => absurd h0 hA, ?_⟩
    intro k0 tk0 rest0 heq _
    rw [heq]
    simp

/-- The (conditional) size pass of `lrwAge`/`lruAge`. -/
theorem sizePhase_spec {V : Type} (m : List (K × V)) (keys : cacheTimeMap K)
    (l : List (K × Int)) (maxSize : Int)
    (hrep : CtmRep keys l) (hwf : GoMap.WF m)
    (hsub : ∀ x : K, (GoMap.find? m x).isSome → x ∈ keysOf l) :
    ∃ l2 d, l = l2 ++ d ∧
      CtmRep (if maxSize > 0 then
          sizeLoop (GoMap.size keys.m + 1) m keys maxSize else (m, keys)).2 l2 ∧
      GoMap.WF (if maxSize > 0 then
          sizeLoop (GoMap.size keys.m + 1) m keys maxSize else (m, keys)).1 ∧
      (∀ x : K, (GoMap.find? (if maxSize > 0 then
          sizeLoop (GoMap.size keys.m + 1) m keys maxSize else (m, keys)).1 x).isSome →
        x ∈ keysOf l2) ∧
      (∀ x : K, x ∈ keysOf l2 →
        GoMap.find? (if maxSize > 0 then
          sizeLoop (GoMap.size keys.m + 1) m keys maxSize else (m, keys)).1 x =
          GoMap.find? m x) ∧
      (0 < maxSize →
        (GoMap.size (if maxSize > 0 then
          sizeLoop (GoMap.size keys.m + 1) m keys maxSize else (m, keys)).1 : Int) ≤
          maxSize) ∧
      (l ≠ [] → l2 ≠ []) := by
  by_cases hS : maxSize > 0
  · rw [if_pos hS]
    have hfuel : l.length < GoMap.size keys.m + 1 := by
      rw [hrep.sizeEq]
      omega
    obtain ⟨l2, d, hsplit, hrep2, hwf2, hsub2, hpt2, hsz, hne⟩ :=
      sizeLoop_spec (GoMap.size keys.m + 1) m keys l maxSize hrep hwf hsub hS hfuel
    exact ⟨l2, d, hsplit, hrep2, hwf2, hsub2, hpt2, fun _ => hsz, hne⟩
  · rw [if_neg hS]
    exact ⟨l, [], by simp, hrep, hwf, hsub, fun x _ => rfl, fun h0 => absurd h0 hS,
      fun h => h⟩

/-- Full specification of the eviction procedure `lrwAge`: it removes a
suffix of the abstract list, survivors keep their bindings, the bounds
are enforced, and the head survives when young enough. -/
theorem lrwAge_spec (c : LRW K V) (l : List (K × Int)) (now : Int)
    (hrep : CtmRep c.keys l) (hwf : GoMap.WF c.m)
    (hsub : ∀ x : K, (GoMap.find? c.m x).isSome → x ∈ keysOf l) :
    ∃ l2 d, l = l2 ++ d ∧
      CtmRep (lrwAge c now).keys l2 ∧
      GoMap.WF (lrwAge c now).m ∧
      (∀ x : K, (GoMap.find? (lrwAge c now).m x).isSome → x ∈ keysOf l2) ∧
      (∀ x : K, x ∈ keysOf l2 →
        GoMap.find? (lrwAge c now).m x = GoMap.find? c.m x) ∧
      (∀ (k0 : K) (tk0 : Int) (rest0 : List (K × Int)),
        l = (k0, tk0) :: rest0 → (0 < c.maxAge → now - tk0 < c.maxAge) → l2 ≠ []) ∧
      (lrwAge c now).maxSize = c.maxSize ∧ (lrwAge c now).maxAge = c.maxAge ∧
      (0 < c.maxSize → (GoMap.size (lrwAge c now).m : Int) ≤ c.maxSize) ∧
      (TsOK l now → TsOK l2 now) ∧
      (TsOK l now → 0 < c.maxAge →
        GoMap.size (lrwAge c now).m = 0 ∨ ∀ p ∈ l2, now - p.2 < c.maxAge) := by
  obtain ⟨l2a, da, hsplita, hrepa, hwfa, hsuba, hpta, hagea, hheada⟩ :=
    agePhase_spec c.m c.keys l now c.maxAge hrep hwf hsub
  obtain ⟨l2, ds, hsplits, hreps, hwfs, hsubs, hpts, hszs, hnes⟩ :=
    sizePhase_spec
      (if c.maxAge > 0 then
        ageLoop (GoMap.size c.keys.m + 1) c.m c.keys now c.maxAge else (c.m, c.keys)).1
      (if c.maxAge > 0 then
        ageLoop (GoMap.size c.keys.m + 1) c.m c.keys now c.maxAge else (c.m, c.keys)).2
      l2a c.maxSize hrepa hwfa hsuba
  have heq : lrwAge c now =
      { c with
        m := (if c.maxSize > 0 then
            sizeLoop
              (GoMap.size (if c.maxAge > 0 then
                ageLoop (GoMap.size c.keys.m + 1) c.m c.keys now c.maxAge
                else (c.m, c.keys)).2.m + 1)
              (if c.maxAge > 0 then
                ageLoop (GoMap.size c.keys.m + 1) c.m c.keys now c.maxAge
                else (c.m, c.keys)).1
              (if c.maxAge > 0 then
                ageLoop (GoMap.size c.keys.m + 1) c.m c.keys now c.maxAge
                else (c.m, c.keys)).2
              c.maxSize
          else
            ((if c.maxAge > 0 then
                ageLoop (GoMap.size c.keys.m + 1) c.m c.keys now c.maxAge
                else (c.m, c.keys)).1,
             (if c.maxAge > 0 then
                ageLoop (GoMap.size c.keys.m + 1) c.m c.keys now c.maxAge
                else (c.m, c.keys)).2)).1,
        keys := (if c.maxSize > 0 then
            sizeLoop
              (GoMap.size (if c.maxAge > 0 then
                ageLoop (GoMap.size c.keys.m + 1) c.m c.keys now c.maxAge
                else (c.m, c.keys)).2.m + 1)
              (if c.maxAge > 0 then
                ageLoop (GoMap.size c.keys.m + 1) c.m c.keys now c.maxAge
                else (c.m, c.keys)).1
              (if c.maxAge > 0 then
                ageLoop (GoMap.size c.keys.m + 1) c.m c.keys now c.maxAge
                else (c.m, c.keys)).2
              c.maxSize
          else
            ((if c.maxAge > 0 then
                ageLoop (GoMap.size c.keys.m + 1) c.m c.keys now c.maxAge
                else (c.m, c.keys)).1,
             (if c.maxAge > 0 then
                ageLoop (GoMap.size c.keys.m + 1) c.m c.keys now c.maxAge
                else (c.m, c.keys)).2)).2 } := by
    by_cases hA : c.maxAge > 0 <;> by_cases hS : c.maxSize > 0 <;>
      simp only [lrwAge, if_pos, if_neg, hA, hS]
  refine ⟨l2, ds ++ da, ?_, ?_, ?_, ?_, ?_, ?_, rfl, rfl, ?_, ?_, ?_⟩
  · rw [hsplita, hsplits, List.append_assoc]
  · rw [heq]
    exact hreps
  · rw [heq]
    exact hwfs
  · intro x hx
    rw [heq] at hx
    exact hsubs x hx
  · intro x hx
    rw [heq]
    rw [hpts x hx]
    refine hpta x ?_
    rw [hsplits, keysOf_append]
    exact List.mem_append_left _ hx
  · intro k0 tk0 rest0 heq0 hc
    exact hnes (hheada k0 tk0 rest0 heq0 hc)
  · intro h0
    rw [heq]
    exact hszs h0
  · intro hts
    exact TsOK_of_append l2 ds now (hsplits ▸ TsOK_of_append l2a da now (hsplita ▸ hts))
  · intro hts hA
    rcases hagea hA with h0 | h0 | h0
    · left
      rw [heq]
      refine size_zero_of_no_keys _ ?_
      intro x hx
      have hxm := hsubs x hx
      rw [hpts x hxm] at hx
      rw [find?_eq_none_of_size_zero _ h0 x] at hx
      simp at hx
    · right
      intro p hp
      rw [h0] at hsplits
      have : l2 = [] := (List.append_eq_nil.mp hsplits.symm).1
      rw [this] at hp
      simp at hp
    · right
      intro p hp
      have htsa : TsOK l2a now := TsOK_of_append l2a da now (hsplita ▸ hts)
      have hpmem : p ∈ l2a := by
        rw [hsplits]
        exact List.mem_append_left _ hp
      have := lastTs_min l2a htsa.1 p hpmem
      omega

/-- Full specification of `SetLRW`: the written key becomes the head of
the abstract list, a suffix of the touched list may be evicted, the
written binding survives, and the configured bounds are enforced. -/
theorem SetLRW_core (c : LRW K V) (l : List (K × Int)) (k : K) (v : V) (now : Int)
    (hrep : CtmRep c.keys l) (hwf : GoMap.WF c.m)
    (hsub : ∀ x : K, (GoMap.find? c.m x).isSome → x ∈ keysOf l) :
    ∃ l2 d, (k, now) :: eraseKey k l = l2 ++ d ∧
      CtmRep (SetLRW c k v now).keys l2 ∧
      GoMap.WF (SetLRW c k v now).m ∧
      (∀ x : K, (GoMap.find? (SetLRW c k v now).m x).isSome → x ∈ keysOf l2) ∧
      (∀ x : K, x ∈ keysOf l2 →
        GoMap.find? (SetLRW c k v now).m x = GoMap.find? (GoMap.insert c.m k v) x) ∧
      l2 ≠ [] ∧ headKey l2 default = k ∧
      GoMap.find? (SetLRW c k v now).m k = some v ∧
      (SetLRW c k v now).maxSize = c.maxSize ∧ (SetLRW c k v now).maxAge = c.maxAge ∧
      (0 < c.maxSize → (GoMap.size (SetLRW c k v now).m : Int) ≤ c.maxSize) ∧
      (TsOK l now → TsOK l2 now) ∧
      (TsOK l now → 0 < c.maxAge →
        GoMap.size (SetLRW c k v now).m = 0 ∨ ∀ p ∈ l2, now - p.2 < c.maxAge) := by
  have hrep1 : CtmRep (updateTimeMap c.keys k now) ((k, now) :: eraseKey k l) :=
    updateTimeMap_rep c.keys l k now hrep
  have hwf1 : GoMap.WF (GoMap.insert c.m k v) := GoMap.WF_insert c.m k v hwf
  have hsub1 : ∀ x : K, (GoMap.find? (GoMap.insert c.m k v) x).isSome →
      x ∈ keysOf ((k, now) :: eraseKey k l) := by
    intro x hx
    by_cases hxk : x = k
    · subst hxk
      simp [keysOf]
    · rw [GoMap.find?_insert_ne c.m k x v hxk] at hx
      have hm := hsub x hx
      simp only [keysOf, List.map_cons, List.mem_cons]
      exact Or.inr (mem_keysOf_eraseKey k x l hm hxk)
  obtain ⟨l2, d, hsplit, hrep2, hwf2, hsub2, hpt2, hhead0, hms, hma, hsz, htsk, hage⟩ :=
    lrwAge_spec
      { c with m := GoMap.insert c.m k v, keys := updateTimeMap c.keys k now }
      ((k, now) :: eraseKey k l) now hrep1 hwf1 hsub1
  have hne : l2 ≠ [] := hhead0 k now (eraseKey k l) rfl (fun _ => by omega)
  have hhk : headKey l2 default = k :=
    headKey_of_append_cons l2 d (eraseKey k l) (k, now) default hsplit hne
  have hkmem : k ∈ keysOf l2 := by
    have := headKey_mem l2 hne default
    rwa [hhk] at this
  have hfind : GoMap.find? (SetLRW c k v now).m k = some v := by
    have h1 := hpt2 k hkmem
    rw [GoMap.find?_insert_self] at h1
    exact h1
  refine ⟨l2, d, hsplit, hrep2, hwf2, hsub2, hpt2, hne, hhk, hfind, hms, hma, hsz,
    ?_, ?_⟩
  · intro hts
    exact htsk (TsOK_touch l now now k hts (le_refl now))
  · intro hts hA
    exact hage (TsOK_touch l now now k hts (le_refl now)) hA

/-- `SetLRU` satisfies the same specification (its body is textually
identical to `SetLRW`). -/
theorem SetLRU_core (c : LRU K V) (l : List (K × Int)) (k : K) (v : V) (now : Int)
    (hrep : CtmRep c.keys l) (hwf : GoMap.WF c.m)
    (hsub : ∀ x : K, (GoMap.find? c.m x).isSome → x ∈ keysOf l) :
    ∃ l2 d, (k, now) :: eraseKey k l = l2 ++ d ∧
      CtmRep (SetLRU c k v now).keys l2 ∧
      GoMap.WF (SetLRU c k v now).m ∧
      (∀ x : K, (GoMap.find? (SetLRU c k v now).m x).isSome → x ∈ keysOf l2) ∧
      (∀ x : K, x ∈ keysOf l2 →
        GoMap.find? (SetLRU c k v now).m x = GoMap.find? (GoMap.insert c.m k v) x) ∧
      l2 ≠ [] ∧ headKey l2 default = k ∧
      GoMap.find? (SetLRU c k v now).m k = some v ∧
      (SetLRU c k v now).maxSize = c.maxSize ∧ (SetLRU c k v now).maxAge = c.maxAge ∧
      (0 < c.maxSize → (GoMap.size (SetLRU c k v now).m : Int) ≤ c.maxSize) ∧
      (TsOK l now → TsOK l2 now) ∧
      (TsOK l now → 0 < c.maxAge →
        GoMap.size (SetLRU c k v now).m = 0 ∨ ∀ p ∈ l2, now - p.2 < c.maxAge) :=
  SetLRW_core
    { m := c.m, keys := c.keys, maxSize := c.maxSize, maxAge := c.maxAge }
    l k v now hrep hwf hsub

/-- Key-set equivalence survives one `SetLRW`, refining the subset
conclusion of `SetLRW_core` for the LRW variant (whose `Get` never
touches the index, keeping index and value map key-identical). -/
theorem SetLRW_iff (c : LRW K V) (l l2 d : List (K × Int)) (k : K) (v : V) (now : Int)
    (hiff : ∀ x : K, (GoMap.find? c.m x).isSome ↔ x ∈ keysOf l)
    (hsplit : (k, now) :: eraseKey k l = l2 ++ d)
    (hsub2 : ∀ x : K, (GoMap.find? (SetLRW c k v now).m x).isSome → x ∈ keysOf l2)
    (hpt2 : ∀ x : K, x ∈ keysOf l2 →
      GoMap.find? (SetLRW c k v now).m x = GoMap.find? (GoMap.insert c.m k v) x) :
    ∀ x : K, (GoMap.find? (SetLRW c k v now).m x).isSome ↔ x ∈ keysOf l2 := by
  intro x
  refine ⟨hsub2 x, ?_⟩
  intro hx
  rw [hpt2 x hx]
  by_cases hxk : x = k
  · subst hxk
    rw [GoMap.find?_insert_self]
    rfl
  · rw [GoMap.find?_insert_ne c.m k x v hxk]
    refine (hiff x).mpr ?_
    have hx1 : x ∈ keysOf ((k, now) :: eraseKey k l) := by
      rw [hsplit, keysOf_append]
      exact List.mem_append_left _ hx
    simp only [keysOf, List.map_cons, List.mem_cons] at hx1
    rcases hx1 with h1 | h1
    · exact absurd h1 hxk
    · exact keysOf_eraseKey_subset k x l h1

/-- Run-level invariant for the LRW variant (no clock assumptions):
some abstract list represents the index, the value map is key-identical
to it, and the size bound holds whenever configured. -/
theorem LRWrun_plain_inv [Inhabited V] :
    ∀ (ops : List (LRWOp K V)) (c : LRW K V) (l : List (K × Int)),
      CtmRep c.keys l → GoMap.WF c.m →
      (∀ x : K, (GoMap.find? c.m x).isSome ↔ x ∈ keysOf l) →
      (0 < c.maxSize → (GoMap.size c.m : Int) ≤ c.maxSize) →
      ∃ l2 : List (K × Int),
        CtmRep (LRWrun c ops).keys l2 ∧ GoMap.WF (LRWrun c ops).m ∧
        (∀ x : K, (GoMap.find? (LRWrun c ops).m x).isSome ↔ x ∈ keysOf l2) ∧
        (LRWrun c ops).maxSize = c.maxSize ∧ (LRWrun c ops).maxAge = c.maxAge ∧
        (0 < c.maxSize → (GoMap.size (LRWrun c ops).m : Int) ≤ c.maxSize) := by
  intro ops
  induction ops with
  | nil =>
    intro c l hrep hwf hiff hsz
    exact ⟨l, hrep, hwf, hiff, rfl, rfl, hsz⟩
  | cons op rest ih =>
    intro c l hrep hwf hiff hsz
    cases op with
    | get k =>
      exact ih c l hrep hwf hiff hsz
    | set k v t =>
      obtain ⟨l2, d, hsplit, hrep2, hwf2, hsub2, hpt2, hne2, hhd2, hfd2, hms, hma,
        hszb, htsk, hage⟩ :=
        SetLRW_core c l k v t hrep hwf (fun x hx => (hiff x).mp hx)
      have hiff2 := SetLRW_iff c l l2 d k v t hiff hsplit hsub2 hpt2
      exact ih (SetLRW c k v t) l2 hrep2 hwf2 hiff2 hszb

/-- Run-level invariant for the LRU variant (no clock assumptions);
because `GetLRU` creates phantom index entries, the value map's keys
are only contained in the abstract list. -/
theorem LRUrun_plain_inv [Inhabited V] :
    ∀ (ops : List (LRUOp K V)) (c : LRU K V) (l : List (K × Int)),
      CtmRep c.keys l → GoMap.WF c.m →
      (∀ x : K, (GoMap.find? c.m x).isSome → x ∈ keysOf l) →
      (0 < c.maxSize → (GoMap.size c.m : Int) ≤ c.maxSize) →
      ∃ l2 : List (K × Int),
        CtmRep (LRUrun c ops).keys l2 ∧ GoMap.WF (LRUrun c ops).m ∧
        (∀ x : K, (GoMap.find? (LRUrun c ops).m x).isSome → x ∈ keysOf l2) ∧
        (LRUrun c ops).maxSize = c.maxSize ∧ (LRUrun c ops).maxAge = c.maxAge ∧
        (0 < c.maxSize → (GoMap.size (LRUrun c ops).m : Int) ≤ c.maxSize) := by
  intro ops
  induction ops with
  | nil =>
    intro c l hrep hwf hsub hsz
    exact ⟨l, hrep, hwf, hsub, rfl, rfl, hsz⟩
  | cons op rest ih =>
    intro c l hrep hwf hsub hsz
    cases op with
    | get k t =>
      have hrep1 : CtmRep (updateTimeMap c.keys k t) ((k, t) :: eraseKey k l) :=
        updateTimeMap_rep c.keys l k t hrep
      have hsub1 : ∀ x : K, (GoMap.find? c.m x).isSome →
          x ∈ keysOf ((k, t) :: eraseKey k l) := by
        intro x hx
        by_cases hxk : x = k
        · subst hxk
          simp [keysOf]
        · simp only [keysOf, List.map_cons, List.mem_cons]
          exact Or.inr (mem_keysOf_eraseKey k x l (hsub x hx) hxk)
      exact ih (GetLRU c k t).2 ((k, t) :: eraseKey k l) hrep1 hwf hsub1 hsz
    | set k v t =>
      obtain ⟨l2, d, hsplit, hrep2, hwf2, hsub2, hpt2, hne2, hhd2, hfd2, hms, hma,
        hszb, htsk, hage⟩ :=
        SetLRU_core c l k v t hrep hwf hsub
      exact ih (SetLRU c k v t) l2 hrep2 hwf2 hsub2 hszb

/-- Chronological run-level invariant for the LRW variant: with
non-decreasing `Set` timestamps the abstract list stays sorted and
bounded by the last instant seen. -/
theorem LRWrun_chron_inv [Inhabited V] :
    ∀ (ops : List (LRWOp K V)) (c : LRW K V) (l : List (K × Int)) (τ : Int),
      LRWChron τ ops →
      CtmRep c.keys l → GoMap.WF c.m →
      (∀ x : K, (GoMap.find? c.m x).isSome ↔ x ∈ keysOf l) →
      TsOK l τ →
      ∃ l2 : List (K × Int),
        CtmRep (LRWrun c ops).keys l2 ∧ GoMap.WF (LRWrun c ops).m ∧
        (∀ x : K, (GoMap.find? (LRWrun c ops).m x).isSome ↔ x ∈ keysOf l2) ∧
        TsOK l2 (LRWlastT τ ops) ∧
        (LRWrun c ops).maxSize = c.maxSize ∧ (LRWrun c ops).maxAge = c.maxAge := by
  intro ops
  induction ops with
  | nil =>
    intro c l τ _ hrep hwf hiff hts
    exact ⟨l, hrep, hwf, hiff, hts, rfl, rfl⟩
  | cons op rest ih =>
    intro c l τ hchron hrep hwf hiff hts
    cases op with
    | get k =>
      exact ih c l τ hchron hrep hwf hiff hts
    | set k v t =>
      obtain ⟨hτt, hchron2⟩ := hchron
      obtain ⟨l2, d, hsplit, hrep2, hwf2, hsub2, hpt2, hne2, hhd2, hfd2, hms, hma,
        hszb, htsk, hage⟩ :=
        SetLRW_core c l k v t hrep hwf (fun x hx => (hiff x).mp hx)
      have hiff2 := SetLRW_iff c l l2 d k v t hiff hsplit hsub2 hpt2
      have hts2 : TsOK l2 t := htsk (TsOK_mono l τ t hts hτt)
      exact ih (SetLRW c k v t) l2 t hchron2 hrep2 hwf2 hiff2 hts2

/-- Chronological run-level invariant for the LRU variant. -/
theorem LRUrun_chron_inv [Inhabited V] :
    ∀ (ops : List (LRUOp K V)) (c : LRU K V) (l : List (K × Int)) (τ : Int),
      LRUChron τ ops →
      CtmRep c.keys l → GoMap.WF c.m →
      (∀ x : K, (GoMap.find? c.m x).isSome → x ∈ keysOf l) →
      TsOK l τ →
      ∃ l2 : List (K × Int),
        CtmRep (LRUrun c ops).keys l2 ∧ GoMap.WF (LRUrun c ops).m ∧
        (∀ x : K, (GoMap.find? (LRUrun c ops).m x).isSome → x ∈ keysOf l2) ∧
        TsOK l2 (LRUlastT τ ops) ∧
        (LRUrun c ops).maxSize = c.maxSize ∧ (LRUrun c ops).maxAge = c.maxAge := by
  intro ops
  induction ops with
  | nil =>
    intro c l τ _ hrep hwf hsub hts
    exact ⟨l, hrep, hwf, hsub, hts, rfl, rfl⟩
  | cons op rest ih =>
    intro c l τ hchron hrep hwf hsub hts
    cases op with
    | get k t =>
      obtain ⟨hτt, hchron2⟩ := hchron
      have hrep1 : CtmRep (updateTimeMap c.keys k t) ((k, t) :: eraseKey k l) :=
        updateTimeMap_rep c.keys l k t hrep
      have hsub1 : ∀ x : K, (GoMap.find? c.m x).isSome →
          x ∈ keysOf ((k, t) :: eraseKey k l) := by
        intro x hx
        by_cases hxk : x = k
        · subst hxk
          simp [keysOf]
        · simp only [keysOf, List.map_cons, List.mem_cons]
          exact Or.inr (mem_keysOf_eraseKey k x l (hsub x hx) hxk)
      have hts1 : TsOK ((k, t) :: eraseKey k l) t := TsOK_touch l τ t k hts hτt
      exact ih (GetLRU c k t).2 ((k, t) :: eraseKey k l) t hchron2 hrep1 hwf hsub1 hts1
    | set k v t =>
      obtain ⟨hτt, hchron2⟩ := hchron
      obtain ⟨l2, d, hsplit, hrep2, hwf2, hsub2, hpt2, hne2, hhd2, hfd2, hms, hma,
        hszb, htsk, hage⟩ :=
        SetLRU_core c l k v t hrep hwf hsub
      have hts2 : TsOK l2 t := htsk (TsOK_mono l τ t hts hτt)
      exact ih (SetLRU c k v t) l2 t hchron2 hrep2 hwf2 hsub2 hts2

/-- With age eviction unconfigured and the size bound not exceeded,
`SetLRW` is a plain write plus touch. -/
theorem SetLRW_noevict (c : LRW K V) (k : K) (v : V) (now : Int)
    (hA : ¬(c.maxAge > 0))
    (hsz : ¬((GoMap.size (GoMap.insert c.m k v) : Int) > c.maxSize)) :
    SetLRW c k v now =
      { c with m := GoMap.insert c.m k v, keys := updateTimeMap c.keys k now } := by
  simp only [SetLRW, lrwAge]
  rw [if_neg hA]
  by_cases hS : c.maxSize > 0
  · rw [if_pos hS]
    rw [sizeLoop_succ, if_neg hsz]
  · rw [if_neg hS]

/-- With age eviction unconfigured and the size bound exceeded by
exactly one, `SetLRW` writes, touches, and evicts a single key: the
oldest key of the touched index. -/
theorem SetLRW_evict_one (c : LRW K V) (k : K) (v : V) (now : Int)
    (hA : ¬(c.maxAge > 0)) (hS : c.maxSize > 0)
    (hpos : 0 < GoMap.size (updateTimeMap c.keys k now).m)
    (hgt : (GoMap.size (GoMap.insert c.m k v) : Int) > c.maxSize)
    (hle : ¬((GoMap.size (GoMap.erase (GoMap.insert c.m k v)
        (removeOldest (updateTimeMap c.keys k now)).2) : Int) > c.maxSize)) :
    SetLRW c k v now =
      { c with
        m := GoMap.erase (GoMap.insert c.m k v)
          (removeOldest (updateTimeMap c.keys k now)).2,
        keys := (removeOldest (updateTimeMap c.keys k now)).1 } := by
  simp only [SetLRW, lrwAge]
  rw [if_neg hA, if_pos hS]
  rw [sizeLoop_succ, if_pos hgt]
  obtain ⟨n, hn⟩ : ∃ n : Nat, GoMap.size (updateTimeMap c.keys k now).m = n + 1 :=
    ⟨GoMap.size (updateTimeMap c.keys k now).m - 1, by omega⟩
  rw [hn]
  rw [sizeLoop_succ, if_neg hle]

/-- Facts about the freshly constructed LRW cache. -/
theorem mkLRW_base (K V : Type) [DecidableEq K] [Inhabited K] (maxSize maxAge : Int) :
    CtmRep (mkLRW K V maxSize maxAge).keys ([] : List (K × Int)) ∧
    GoMap.WF (mkLRW K V maxSize maxAge).m ∧
    (∀ x : K, (GoMap.find? (mkLRW K V maxSize maxAge).m x).isSome ↔
      x ∈ keysOf ([] : List (K × Int))) ∧
    (0 < maxSize → (GoMap.size (mkLRW K V maxSize maxAge).m : Int) ≤ maxSize) := by
  refine ⟨rep_nil K, List.nodup_nil, ?_, ?_⟩
  · intro x
    simp [mkLRW, GoMap.find?, keysOf]
  · intro h
    have h0 : (GoMap.size (mkLRW K V maxSize maxAge).m : Int) = 0 := rfl
    omega

/-- Facts about the freshly constructed LRU cache. -/
theorem mkLRU_base (K V : Type) [DecidableEq K] [Inhabited K] (maxSize maxAge : Int) :
    CtmRep (mkLRU K V maxSize maxAge).keys ([] : List (K × Int)) ∧
    GoMap.WF (mkLRU K V maxSize maxAge).m ∧
    (∀ x : K, (GoMap.find? (mkLRU K V maxSize maxAge).m x).isSome →
      x ∈ keysOf ([] : List (K × Int))) ∧
    (0 < maxSize → (GoMap.size (mkLRU K V maxSize maxAge).m : Int) ≤ maxSize) := by
  refine ⟨rep_nil K, List.nodup_nil, ?_, ?_⟩
  · intro x
    simp [mkLRU, GoMap.find?, keysOf]
  · intro h
    have h0 : (GoMap.size (mkLRU K V maxSize maxAge).m : Int) = 0 := rfl
    omega

/- ------------------------------------------------------------------ -/
/- Older helper lemmas.                                               -/
/- ------------------------------------------------------------------ -/

theorem updateTimeMap_find_self (ctm : cacheTimeMap K) (k : K) (t : Int) :
    (GoMap.find? (updateTimeMap ctm k t).m k).isSome := by
  unfold updateTimeMap
  by_cases h0 : GoMap.size ctm.m = 0
  · simp [h0, GoMap.find?_insert_self]
  · rcases hf : GoMap.find? ctm.m k with _ | e0
    · simp [h0, hf, GoMap.find?_insert_self]
    · by_cases h1 : ctm.first = k
      · simp [h0, hf, h1, GoMap.find?_insert_self]
      · by_cases h2 : ctm.last = k
        · by_cases h3 : e0.prev = k
          · simp [h0, hf, h1, h2, h3, GoMap.find?_insert_self]
          · have hne : k ≠ e0.prev := fun hh => h3 hh.symm
            simp [h0, hf, h1, h2, GoMap.find?_insert_ne _ _ _ _ hne,
              GoMap.find?_insert_self]
        · simp [h0, hf, h1, h2, GoMap.find?_insert_self]

theorem removeOldest_sentinel (ctm : cacheTimeMap K)
    (h0 : GoMap.size (removeOldest ctm).1.m = 0) :
    (removeOldest ctm).1.first = default ∧ (removeOldest ctm).1.last = default := by
  unfold removeOldest at h0 ⊢
  by_cases he : GoMap.size ctm.m = 0
  · simp [he]
  · simp only [he, if_false] at h0 ⊢
    by_cases h2 : GoMap.size (GoMap.erase
        (GoMap.insert ctm.m (GoMap.get ctm.m ctm.last).prev
          { GoMap.get ctm.m (GoMap.get ctm.m ctm.last).prev with
              next := (GoMap.get ctm.m ctm.last).prev }) ctm.last) = 0
    · simp [h2]
    · simp [h2] at h0

/-- Reachability invariant behind C5: an empty reachable index has both
ends at the sentinel. -/
theorem ctmReach_empty_sentinel (ctm : cacheTimeMap K) (h : CtmReach ctm)
    (h0 : GoMap.size ctm.m = 0) : ctm.first = default ∧ ctm.last = default := by
  induction h with
  | init => exact ⟨rfl, rfl⟩
  | touch ctm2 k t hr ih =>
      exfalso
      have hs := updateTimeMap_find_self ctm2 k t
      have hm : (updateTimeMap ctm2 k t).m = [] := List.length_eq_zero.mp h0
      rw [hm] at hs
      simp [GoMap.find?] at hs
  | evict ctm2 hr ih => exact removeOldest_sentinel ctm2 h0

/- ------------------------------------------------------------------ -/
/- Claim theorems.                                                    -/
/- ------------------------------------------------------------------ -/

/-- C3: in the read-touches (LRU) variant, `Get` touches the recency
index unconditionally, even when the key is absent from the values map:
it returns the zero value and `false`, and leaves a phantom entry for
the key in the index's node map while the values map still lacks it. -/
theorem C3_lru_get_phantom [Inhabited V] (c : LRU K V) (k : K) (now : Int)
    (h : GoMap.find? c.m k = none) :
    (GetLRU c k now).1 = (default, false) ∧
    (GetLRU c k now).2.keys = updateTimeMap c.keys k now ∧
    (GoMap.find? (GetLRU c k now).2.keys.m k).isSome ∧
    GoMap.find? (GetLRU c k now).2.m k = none := by
  refine ⟨?_, rfl, ?_, ?_⟩
  · simp [GetLRU, GoMap.get, h]
  · exact updateTimeMap_find_self c.keys k now
  · simpa [GetLRU] using h

/-- Witness for C3: `Get(99)` on an empty read-touches cache returns
`("", false)` yet plants key 99 in the recency index. -/
theorem C3_witness :
    GoMap.find? (mkLRU Nat String 5 0).m 99 = none ∧
    ((GetLRU (mkLRU Nat String 5 0) 99 7).1 = (default, false) ∧
     (GetLRU (mkLRU Nat String 5 0) 99 7).2.keys =
       updateTimeMap (mkLRU Nat String 5 0).keys 99 7 ∧
     (GoMap.find? (GetLRU (mkLRU Nat String 5 0) 99 7).2.keys.m 99).isSome ∧
     GoMap.find? (GetLRU (mkLRU Nat String 5 0) 99 7).2.m 99 = none) :=
  ⟨rfl, C3_lru_get_phantom (mkLRU Nat String 5 0) 99 7 rfl⟩

/-- C4 (amended): `removeOldest` on an empty reachable index returns the
sentinel (zero) key and leaves the index state unchanged; however, the
function returns only the key — there is no second boolean/optional
result — so this outcome is not distinguishable by the caller from a
real eviction of the zero-valued key (see `C4_counterexample`). -/
theorem C4_remove_oldest_empty (ctm : cacheTimeMap K) (h : CtmReach ctm)
    (h0 : GoMap.size ctm.m = 0) : removeOldest ctm = (ctm, default) := by
  obtain ⟨h1, h2⟩ := ctmReach_empty_sentinel ctm h h0
  obtain ⟨mm, ff, ll⟩ := ctm
  simp only at h1 h2
  subst h1
  subst h2
  unfold removeOldest
  simp [h0]

/-- Witness for C4: the fresh empty index. -/
theorem C4_remove_oldest_empty_witness :
    removeOldest (newCacheTimeMap Nat) = (newCacheTimeMap Nat, 0) :=
  C4_remove_oldest_empty (newCacheTimeMap Nat) CtmReach.init rfl

/-- C4 counterexample: the no-eviction call on the empty index and a
genuine eviction of the zero-valued key return the very same key value
(and the function has no other result), so the two outcomes are not
distinguishable by the caller, contrary to the claim. -/
theorem C4_counterexample :
    (removeOldest (newCacheTimeMap Nat)).2 =
      (removeOldest (updateTimeMap (newCacheTimeMap Nat) 0 5)).2 ∧
    GoMap.size (newCacheTimeMap Nat).m = 0 ∧
    GoMap.size (updateTimeMap (newCacheTimeMap Nat) 0 5).m = 1 ∧
    GoMap.size (removeOldest (updateTimeMap (newCacheTimeMap Nat) 0 5)).1.m = 0 := by
  decide

/-- C5 (amended): at every reachable recency-index state, an empty node
map forces `head`/`tail` to hold the sentinel (zero) key value; the
converse direction of the claimed "iff" fails once the zero-valued key
itself is touched (see `C5_counterexample`). -/
theorem C5_empty_implies_sentinel (ctm : cacheTimeMap K) (h : CtmReach ctm)
    (h0 : GoMap.size ctm.m = 0) : ctm.first = default ∧ ctm.last = default :=
  ctmReach_empty_sentinel ctm h h0

/-- Witness for C5: the fresh empty index. -/
theorem C5_empty_implies_sentinel_witness :
    (newCacheTimeMap Nat).first = 0 ∧ (newCacheTimeMap Nat).last = 0 :=
  C5_empty_implies_sentinel (newCacheTimeMap Nat) CtmReach.init rfl

/-- C5 counterexample: one touch of the zero-valued key produces a
reachable index whose node map is nonempty while `head` and `tail` still
hold the sentinel value, refuting the claimed "iff". -/
theorem C5_counterexample :
    CtmReach (updateTimeMap (newCacheTimeMap Nat) 0 5) ∧
    GoMap.size (updateTimeMap (newCacheTimeMap Nat) 0 5).m = 1 ∧
    (updateTimeMap (newCacheTimeMap Nat) 0 5).first = default ∧
    (updateTimeMap (newCacheTimeMap Nat) 0 5).last = default :=
  ⟨CtmReach.touch _ 0 5 CtmReach.init, by decide, by decide, by decide⟩

/-- C6: in the write-only-touches (LRW) variant, `Get` performs no
touch: it returns the looked-up `(value, found)` pair and leaves the
entire cache state — values map, recency index, ordering and timestamps
— unchanged. -/
theorem C6_lrw_get_pure [Inhabited V] (c : LRW K V) (k : K) :
    (GetLRW c k).2 = c ∧
    (∀ v : V, GoMap.find? c.m k = some v → (GetLRW c k).1 = (v, true)) ∧
    (GoMap.find? c.m k = none → (GetLRW c k).1 = (default, false)) := by
  refine ⟨rfl, ?_, ?_⟩
  · intro v hv
    simp [GetLRW, GoMap.get, hv]
  · intro hn
    simp [GetLRW, GoMap.get, hn]

/-- Witness for C6: a `Get` after one `Set` returns the stored value and
changes nothing. -/
theorem C6_witness :
    (GetLRW (SetLRW (mkLRW Nat Nat 5 0) 3 7 0) 3).2 = SetLRW (mkLRW Nat Nat 5 0) 3 7 0 ∧
    (GetLRW (SetLRW (mkLRW Nat Nat 5 0) 3 7 0) 3).1 = (7, true) :=
  ⟨(C6_lrw_get_pure (SetLRW (mkLRW Nat Nat 5 0) 3 7 0) 3).1,
   (C6_lrw_get_pure (SetLRW (mkLRW Nat Nat 5 0) 3 7 0) 3).2.1 7 (by decide)⟩

/-- C9: for each variant, the constructor fails with the configuration
error exactly when `maxSize` is non-positive and `maxAge` is zero; in
every other case it returns the fresh cache. (No later operation can
raise an error: the `Set`/`Get` models are total functions whose return
types carry no error component, mirroring the Go signatures.) -/
theorem C9_constructor_error_iff (K V : Type) [Inhabited K] (maxSize maxAge : Int) :
    (NewLRWCache K V maxSize maxAge = Except.error CacheError.incorrectlySpecified
       ↔ maxSize ≤ 0 ∧ maxAge = 0) ∧
    (NewLRUCache K V maxSize maxAge = Except.error CacheError.incorrectlySpecified
       ↔ maxSize ≤ 0 ∧ maxAge = 0) ∧
    (¬(maxSize ≤ 0 ∧ maxAge = 0) →
      NewLRWCache K V maxSize maxAge = Except.ok (mkLRW K V maxSize maxAge) ∧
      NewLRUCache K V maxSize maxAge = Except.ok (mkLRU K V maxSize maxAge)) := by
  by_cases h : maxSize < 1 ∧ maxAge = 0
  · have h2 : maxSize ≤ 0 ∧ maxAge = 0 := ⟨by omega, h.2⟩
    refine ⟨?_, ?_, ?_⟩
    · simp [NewLRWCache, h, h2]
    · simp [NewLRUCache, h, h2]
    · intro hc
      exact absurd h2 hc
  · have h2 : ¬(maxSize ≤ 0 ∧ maxAge = 0) := by
      intro hc
      exact h ⟨by omega, hc.2⟩
    refine ⟨?_, ?_, ?_⟩
    · simp [NewLRWCache, h, h2]
    · simp [NewLRUCache, h, h2]
    · intro _
      exact ⟨by simp [NewLRWCache, h], by simp [NewLRUCache, h]⟩

/-- Witness for C9: both-unbounded is rejected; a size-bounded cache is
created. -/
theorem C9_witness :
    NewLRWCache Nat Nat 0 0 = Except.error CacheError.incorrectlySpecified ∧
    NewLRUCache Nat Nat 3 0 = Except.ok (mkLRU Nat Nat 3 0) :=
  ⟨(C9_constructor_error_iff Nat Nat 0 0).1.mpr ⟨le_refl 0, rfl⟩,
   ((C9_constructor_error_iff Nat Nat 3 0).2.2 (by omega)).2⟩

/-- C2 counterexample: with `maxAge = 5`, a key written at time 0
survives a `Get` of another key at time 100 because neither variant's
`Get` runs the eviction pass: immediately after that call the entry's
age is 100, not below `maxAge`. -/
theorem C2_counterexample :
    NewLRUCache Nat Nat 0 5 = Except.ok (mkLRU Nat Nat 0 5) ∧
    GoMap.find? ((GetLRU (SetLRU (mkLRU Nat Nat 0 5) 1 10 0) 2 100).2).m 1 = some 10 ∧
    (GoMap.get ((GetLRU (SetLRU (mkLRU Nat Nat 0 5) 1 10 0) 2 100).2).keys.m 1).timestamp = 0 ∧
    ¬(100 - (GoMap.get ((GetLRU (SetLRU (mkLRU Nat Nat 0 5) 1 10 0) 2 100).2).keys.m 1).timestamp
        < ((GetLRU (SetLRU (mkLRU Nat Nat 0 5) 1 10 0) 2 100).2).maxAge) :=
  ⟨rfl, by decide, by decide, by decide⟩

/-- C7 counterexample: after `Get(99)` on an empty read-touches cache,
walking the index from `head` via the `next` pointers visits the one
phantom key, not `len(values) = 0` keys, so the walk does not visit
exactly one key per entry of the values map. -/
theorem C7_counterexample :
    GoMap.size ((GetLRU (mkLRU Nat String 5 0) 99 7).2).m = 0 ∧
    ctmWalk ((GetLRU (mkLRU Nat String 5 0) 99 7).2).keys
        (GoMap.size ((GetLRU (mkLRU Nat String 5 0) 99 7).2).keys.m)
        ((GetLRU (mkLRU Nat String 5 0) 99 7).2).keys.first = [99] := by
  decide

/-- C8 counterexample: with `maxSize = 2` and keys 1, 2, 3 written in
order, key 1 (A) is evicted already by the third `Set`; the fourth
`Set` then evicts key 2 (B), not A. -/
theorem C8_counterexample :
    NewLRWCache Nat Nat 2 0 = Except.ok (mkLRW Nat Nat 2 0) ∧
    GoMap.find? (SetLRW (SetLRW (SetLRW (mkLRW Nat Nat 2 0) 1 10 0) 2 20 1) 3 30 2).m 1
      = none ∧
    GoMap.find? (SetLRW (SetLRW (SetLRW (mkLRW Nat Nat 2 0) 1 10 0) 2 20 1) 3 30 2).m 2
      = some 20 ∧
    GoMap.find? (SetLRW (SetLRW (SetLRW (SetLRW (mkLRW Nat Nat 2 0) 1 10 0) 2 20 1) 3 30 2)
        4 40 3).m 2 = none ∧
    GoMap.find? (SetLRW (SetLRW (SetLRW (SetLRW (mkLRW Nat Nat 2 0) 1 10 0) 2 20 1) 3 30 2)
        4 40 3).m 3 = some 30 ∧
    GoMap.find? (SetLRW (SetLRW (SetLRW (SetLRW (mkLRW Nat Nat 2 0) 1 10 0) 2 20 1) 3 30 2)
        4 40 3).m 4 = some 40 :=
  ⟨rfl, by decide, by decide, by decide, by decide, by decide⟩

/-- C1: for every cache of either variant with maxSize > 0 (such a
cache always constructs successfully) and every finite call sequence,
after the run the number of entries in the values map is at most
maxSize; since the sequence is arbitrary, this bounds the size after
each `Set` of any sequence. -/
theorem C1_size_bound (K V : Type) [DecidableEq K] [Inhabited K] [Inhabited V]
    (maxSize maxAge : Int) (hS : 0 < maxSize)
    (lops : List (LRWOp K V)) (uops : List (LRUOp K V)) :
    (GoMap.size (LRWrun (mkLRW K V maxSize maxAge) lops).m : Int) ≤ maxSize ∧
    (GoMap.size (LRUrun (mkLRU K V maxSize maxAge) uops).m : Int) ≤ maxSize := by
  obtain ⟨hrep0, hwf0, hiff0, hsz0⟩ := mkLRW_base K V maxSize maxAge
  obtain ⟨l2, hrep, hwf, hiff, hms, hma, hsz⟩ :=
    LRWrun_plain_inv lops (mkLRW K V maxSize maxAge) [] hrep0 hwf0 hiff0 hsz0
  obtain ⟨hrep0u, hwf0u, hsub0u, hsz0u⟩ := mkLRU_base K V maxSize maxAge
  obtain ⟨l2u, hrepu, hwfu, hsubu, hmsu, hmau, hszu⟩ :=
    LRUrun_plain_inv uops (mkLRU K V maxSize maxAge) [] hrep0u hwf0u hsub0u hsz0u
  exact ⟨hsz hS, hszu hS⟩

/-- Witness for C1 at a concrete instance. -/
theorem C1_size_bound_witness :
    0 < (2 : Int) ∧
      ((GoMap.size (LRWrun (mkLRW Nat Nat 2 0) [LRWOp.set 1 10 0]).m : Int) ≤ 2 ∧
       (GoMap.size (LRUrun (mkLRU Nat Nat 2 0) [LRUOp.set 1 10 0]).m : Int) ≤ 2) :=
  ⟨by decide, C1_size_bound Nat Nat 2 0 (by decide) [LRWOp.set 1 10 0] [LRUOp.set 1 10 0]⟩

/-- C7 (amended, LRW variant): after any call sequence on an LRW cache,
walking the recency index from `first` via the `next` pointers for
`len(index)` steps visits a duplicate-free key list that is exactly the
key set of the values map, has length `len(values)`, and ends at
`last`. (For the LRU variant the walk instead has `len(index)` entries,
which can exceed `len(values)` — see the counterexample.) -/
theorem C7_lrw_walk_values (K V : Type) [DecidableEq K] [Inhabited K] [Inhabited V]
    (maxSize maxAge : Int) (ops : List (LRWOp K V)) :
    ∃ ks : List K,
      ctmWalk (LRWrun (mkLRW K V maxSize maxAge) ops).keys
        (GoMap.size (LRWrun (mkLRW K V maxSize maxAge) ops).keys.m)
        (LRWrun (mkLRW K V maxSize maxAge) ops).keys.first = ks ∧
      ks.Nodup ∧
      (∀ x : K, x ∈ ks ↔
        (GoMap.find? (LRWrun (mkLRW K V maxSize maxAge) ops).m x).isSome) ∧
      ks.length = GoMap.size (LRWrun (mkLRW K V maxSize maxAge) ops).m ∧
      (ks ≠ [] →
        ks.getLast? = some (LRWrun (mkLRW K V maxSize maxAge) ops).keys.last) := by
  obtain ⟨hrep0, hwf0, hiff0, hsz0⟩ := mkLRW_base K V maxSize maxAge
  obtain ⟨l2, hrep, hwf, hiff, hms, hma, hsz⟩ :=
    LRWrun_plain_inv ops (mkLRW K V maxSize maxAge) [] hrep0 hwf0 hiff0 hsz0
  refine ⟨keysOf l2, rep_walk _ l2 hrep, hrep.nodup, ?_, ?_, ?_⟩
  · intro x
    exact (hiff x).symm
  · exact (size_eq_of_keys_iff _ (keysOf l2) hwf hrep.nodup hiff).symm
  · intro hne
    have hlne : l2 ≠ [] := fun h0 => hne (by rw [h0]; rfl)
    rw [keysOf_getLast? l2 hlne default, hrep.last_eq]

/-- C10: on every reachable state of either variant, `Set(k, v)`
followed immediately by `Get(k)` (same instant, no intervening call)
returns `(v, true)` — the eviction pass inside `Set` never evicts the
key that this same `Set` just wrote. -/
theorem C10_set_then_get (K V : Type) [DecidableEq K] [Inhabited K] [Inhabited V]
    (maxSize maxAge : Int) (hok : ¬(maxSize < 1 ∧ maxAge = 0))
    (lops : List (LRWOp K V)) (uops : List (LRUOp K V)) (k : K) (v : V) (t : Int) :
    (GetLRW (SetLRW (LRWrun (mkLRW K V maxSize maxAge) lops) k v t) k).1 =
      (v, true) ∧
    (GetLRU (SetLRU (LRUrun (mkLRU K V maxSize maxAge) uops) k v t) k t).1 =
      (v, true) := by
  constructor
  · obtain ⟨hrep0, hwf0, hiff0, hsz0⟩ := mkLRW_base K V maxSize maxAge
    obtain ⟨l1, hrep1, hwf1, hiff1, hms1, hma1, hsz1⟩ :=
      LRWrun_plain_inv lops (mkLRW K V maxSize maxAge) [] hrep0 hwf0 hiff0 hsz0
    obtain ⟨l2, d, hsplit, hrep2, hwf2, hsub2, hpt2, hne2, hhd2, hfd2, hrest⟩ :=
      SetLRW_core (LRWrun (mkLRW K V maxSize maxAge) lops) l1 k v t hrep1 hwf1
        (fun x hx => (hiff1 x).mp hx)
    simp [GetLRW, GoMap.get, hfd2]
  · obtain ⟨hrep0u, hwf0u, hsub0u, hsz0u⟩ := mkLRU_base K V maxSize maxAge
    obtain ⟨l1, hrep1, hwf1, hsub1, hms1, hma1, hsz1⟩ :=
      LRUrun_plain_inv uops (mkLRU K V maxSize maxAge) [] hrep0u hwf0u hsub0u hsz0u
    obtain ⟨l2, d, hsplit, hrep2, hwf2, hsub2, hpt2, hne2, hhd2, hfd2, hrest⟩ :=
      SetLRU_core (LRUrun (mkLRU K V maxSize maxAge) uops) l1 k v t hrep1 hwf1 hsub1
    simp [GetLRU, GoMap.get, hfd2]

/-- Witness for C10 at a concrete instance. -/
theorem C10_set_then_get_witness :
    ¬((2 : Int) < 1 ∧ (5 : Int) = 0) ∧
      ((GetLRW (SetLRW (LRWrun (mkLRW Nat Nat 2 5) [LRWOp.get 9]) 1 7 3) 1).1 =
        (7, true) ∧
       (GetLRU (SetLRU (LRUrun (mkLRU Nat Nat 2 5) [LRUOp.get 9 2]) 1 7 3) 1 3).1 =
        (7, true)) :=
  ⟨by decide,
   C10_set_then_get Nat Nat 2 5 (by decide) [LRWOp.get 9] [LRUOp.get 9 2] 1 7 3⟩

/-- C2 (amended): for either variant with maxAge > 0 (such a cache
always constructs successfully), after a chronological call sequence
followed by a final `Set` at instant `t`, every key of the values map
has a recency-index node whose timestamp `ts` satisfies
`t - ts < maxAge`. (After a `Get` the bound can fail — see the
counterexample — since neither variant's `Get` runs the eviction
pass.) -/
theorem C2_age_bound_after_set (K V : Type) [DecidableEq K] [Inhabited K] [Inhabited V]
    (maxSize maxAge τ0 : Int) (hA : 0 < maxAge)
    (lops : List (LRWOp K V)) (hlc : LRWChron τ0 lops)
    (uops : List (LRUOp K V)) (huc : LRUChron τ0 uops)
    (k : K) (v : V) (t : Int)
    (hlt : LRWlastT τ0 lops ≤ t) (hut : LRUlastT τ0 uops ≤ t) :
    (∀ x : K,
      (GoMap.find?
        (SetLRW (LRWrun (mkLRW K V maxSize maxAge) lops) k v t).m x).isSome →
      ∃ e : cacheKey K,
        GoMap.find?
          (SetLRW (LRWrun (mkLRW K V maxSize maxAge) lops) k v t).keys.m x =
          some e ∧ t - e.timestamp < maxAge) ∧
    (∀ x : K,
      (GoMap.find?
        (SetLRU (LRUrun (mkLRU K V maxSize maxAge) uops) k v t).m x).isSome →
      ∃ e : cacheKey K,
        GoMap.find?
          (SetLRU (LRUrun (mkLRU K V maxSize maxAge) uops) k v t).keys.m x =
          some e ∧ t - e.timestamp < maxAge) := by
  constructor
  · obtain ⟨hrep0, hwf0, hiff0, hsz0⟩ := mkLRW_base K V maxSize maxAge
    obtain ⟨l1, hrep1, hwf1, hiff1, hts1, hms1, hma1⟩ :=
      LRWrun_chron_inv lops (mkLRW K V maxSize maxAge) [] τ0 hlc hrep0 hwf0 hiff0
        ⟨List.Pairwise.nil, by simp⟩
    obtain ⟨l2, d, hsplit, hrep2, hwf2, hsub2, hpt2, hne2, hhd2, hfd2, hms2, hma2,
      hszb2, htsk2, hage2⟩ :=
      SetLRW_core (LRWrun (mkLRW K V maxSize maxAge) lops) l1 k v t hrep1 hwf1
        (fun x hx => (hiff1 x).mp hx)
    intro x hx
    have hxmem : x ∈ keysOf l2 := hsub2 x hx
    obtain ⟨ts, htsmem⟩ := mem_keysOf_exists l2 x hxmem
    obtain ⟨e, he, hets⟩ := rep_lookup_ts _ l2 hrep2 x ts htsmem
    refine ⟨e, he, ?_⟩
    have hmaA : (LRWrun (mkLRW K V maxSize maxAge) lops).maxAge = maxAge := hma1
    rcases hage2 (TsOK_mono l1 _ t hts1 hlt) (by rw [hmaA]; exact hA) with h0 | h0
    · rw [find?_eq_none_of_size_zero _ h0 x] at hx
      simp at hx
    · have hb := h0 (x, ts) htsmem
      omega
  · obtain ⟨hrep0u, hwf0u, hsub0u, hsz0u⟩ := mkLRU_base K V maxSize maxAge
    obtain ⟨l1, hrep1, hwf1, hsub1, hts1, hms1, hma1⟩ :=
      LRUrun_chron_inv uops (mkLRU K V maxSize maxAge) [] τ0 huc hrep0u hwf0u hsub0u
        ⟨List.Pairwise.nil, by simp⟩
    obtain ⟨l2, d, hsplit, hrep2, hwf2, hsub2, hpt2, hne2, hhd2, hfd2, hms2, hma2,
      hszb2, htsk2, hage2⟩ :=
      SetLRU_core (LRUrun (mkLRU K V maxSize maxAge) uops) l1 k v t hrep1 hwf1 hsub1
    intro x hx
    have hxmem : x ∈ keysOf l2 := hsub2 x hx
    obtain ⟨ts, htsmem⟩ := mem_keysOf_exists l2 x hxmem
    obtain ⟨e, he, hets⟩ := rep_lookup_ts _ l2 hrep2 x ts htsmem
    refine ⟨e, he, ?_⟩
    have hmaA : (LRUrun (mkLRU K V maxSize maxAge) uops).maxAge = maxAge := hma1
    rcases hage2 (TsOK_mono l1 _ t hts1 hut) (by rw [hmaA]; exact hA) with h0 | h0
    · rw [find?_eq_none_of_size_zero _ h0 x] at hx
      simp at hx
    · have hb := h0 (x, ts) htsmem
      omega

/-- Witness for C2 at a concrete instance. -/
theorem C2_age_bound_after_set_witness :
    0 < (4 : Int) ∧ LRWChron 0 ([LRWOp.set 1 10 1] : List (LRWOp Nat Nat)) ∧
      LRUChron 0 ([LRUOp.get 2 1] : List (LRUOp Nat Nat)) ∧
      LRWlastT 0 ([LRWOp.set 1 10 1] : List (LRWOp Nat Nat)) ≤ 3 ∧
      LRUlastT 0 ([LRUOp.get 2 1] : List (LRUOp Nat Nat)) ≤ 3 ∧
      ((∀ x : Nat,
        (GoMap.find?
          (SetLRW (LRWrun (mkLRW Nat Nat 5 4) [LRWOp.set 1 10 1]) 6 7 3).m x).isSome →
        ∃ e : cacheKey Nat,
          GoMap.find?
            (SetLRW (LRWrun (mkLRW Nat Nat 5 4) [LRWOp.set 1 10 1]) 6 7 3).keys.m x =
            some e ∧ 3 - e.timestamp < 4) ∧
       (∀ x : Nat,
        (GoMap.find?
          (SetLRU (LRUrun (mkLRU Nat Nat 5 4) [LRUOp.get 2 1]) 6 7 3).m x).isSome →
        ∃ e : cacheKey Nat,
          GoMap.find?
            (SetLRU (LRUrun (mkLRU Nat Nat 5 4) [LRUOp.get 2 1]) 6 7 3).keys.m x =
            some e ∧ 3 - e.timestamp < 4)) :=
  ⟨by decide, ⟨by decide, trivial⟩, ⟨by decide, trivial⟩, by decide, by decide,
   C2_age_bound_after_set Nat Nat 5 4 0 (by decide) [LRWOp.set 1 10 1]
     ⟨by decide, trivial⟩ [LRUOp.get 2 1] ⟨by decide, trivial⟩ 6 7 3
     (by decide) (by decide)⟩

/-- C8 (amended): with maxSize = 3 (not 2: with maxSize = 2 the third
`Set` already evicts A, see the counterexample), after writing three
distinct keys a, b, c in that order, inserting a distinct 4th key d
evicts exactly the oldest key a: a was present before the 4th `Set`
and is gone after it, while b, c, d keep their values. -/
theorem C8_oldest_first (K V : Type) [DecidableEq K] [Inhabited K] [Inhabited V]
    (a b c d : K) (va vb vc vd : V) (t0 t1 t2 t3 : Int)
    (hab : a ≠ b) (hac : a ≠ c) (had : a ≠ d)
    (hbc : b ≠ c) (hbd : b ≠ d) (hcd : c ≠ d) :
    GoMap.find?
      (SetLRW (SetLRW (SetLRW (SetLRW (mkLRW K V 3 0) a va t0) b vb t1) c vc t2)
        d vd t3).m a = none ∧
    GoMap.find?
      (SetLRW (SetLRW (SetLRW (SetLRW (mkLRW K V 3 0) a va t0) b vb t1) c vc t2)
        d vd t3).m b = some vb ∧
    GoMap.find?
      (SetLRW (SetLRW (SetLRW (SetLRW (mkLRW K V 3 0) a va t0) b vb t1) c vc t2)
        d vd t3).m c = some vc ∧
    GoMap.find?
      (SetLRW (SetLRW (SetLRW (SetLRW (mkLRW K V 3 0) a va t0) b vb t1) c vc t2)
        d vd t3).m d = some vd ∧
    GoMap.find?
      (SetLRW (SetLRW (SetLRW (mkLRW K V 3 0) a va t0) b vb t1) c vc t2).m a =
      some va := by
  have hng : ¬((0 : Int) > 0) := by decide
  -- the four value maps
  have hf1a : GoMap.find? (GoMap.insert ([] : List (K × V)) a va) a = some va :=
    GoMap.find?_insert_self [] a va
  have hf1b : GoMap.find? (GoMap.insert ([] : List (K × V)) a va) b = none := by
    rw [GoMap.find?_insert_ne [] a b va (Ne.symm hab)]
    rfl
  have hf2c : GoMap.find? (GoMap.insert (GoMap.insert ([] : List (K × V)) a va) b vb)
      c = none := by
    rw [GoMap.find?_insert_ne _ b c vb (Ne.symm hbc),
      GoMap.find?_insert_ne [] a c va (Ne.symm hac)]
    rfl
  have hf3d : GoMap.find?
      (GoMap.insert (GoMap.insert (GoMap.insert ([] : List (K × V)) a va) b vb) c vc)
      d = none := by
    rw [GoMap.find?_insert_ne _ c d vc (Ne.symm hcd),
      GoMap.find?_insert_ne _ b d vb (Ne.symm hbd),
      GoMap.find?_insert_ne [] a d va (Ne.symm had)]
    rfl
  have hs1 : GoMap.size (GoMap.insert ([] : List (K × V)) a va) = 1 := rfl
  have hs2 : GoMap.size
      (GoMap.insert (GoMap.insert ([] : List (K × V)) a va) b vb) = 2 := by
    rw [GoMap.size_insert_of_find?_none _ b vb hf1b, hs1]
  have hs3 : GoMap.size
      (GoMap.insert (GoMap.insert (GoMap.insert ([] : List (K × V)) a va) b vb)
        c vc) = 3 := by
    rw [GoMap.size_insert_of_find?_none _ c vc hf2c, hs2]
  have hs4 : GoMap.size
      (GoMap.insert
        (GoMap.insert (GoMap.insert (GoMap.insert ([] : List (K × V)) a va) b vb)
          c vc) d vd) = 4 := by
    rw [GoMap.size_insert_of_find?_none _ d vd hf3d, hs3]
  have hwfM4 : GoMap.WF
      (GoMap.insert
        (GoMap.insert (GoMap.insert (GoMap.insert ([] : List (K × V)) a va) b vb)
          c vc) d vd) :=
    GoMap.WF_insert _ d vd (GoMap.WF_insert _ c vc (GoMap.WF_insert _ b vb
      (GoMap.WF_insert _ a va List.nodup_nil)))
  -- the four index states
  have hrep1 : CtmRep (updateTimeMap (newCacheTimeMap K) a t0) [(a, t0)] :=
    updateTimeMap_rep (newCacheTimeMap K) [] a t0 (rep_nil K)
  have herb : eraseKey b [(a, t0)] = [(a, t0)] :=
    eraseKey_of_not_mem b _ (by simp [keysOf, Ne.symm hab])
  have hrep2 : CtmRep (updateTimeMap (updateTimeMap (newCacheTimeMap K) a t0) b t1)
      [(b, t1), (a, t0)] := by
    have h := updateTimeMap_rep (updateTimeMap (newCacheTimeMap K) a t0) [(a, t0)]
      b t1 hrep1
    rw [herb] at h
    exact h
  have herc : eraseKey c [(b, t1), (a, t0)] = [(b, t1), (a, t0)] :=
    eraseKey_of_not_mem c _ (by simp [keysOf, Ne.symm hbc, Ne.symm hac])
  have hrep3 : CtmRep
      (updateTimeMap (updateTimeMap (updateTimeMap (newCacheTimeMap K) a t0) b t1)
        c t2) [(c, t2), (b, t1), (a, t0)] := by
    have h := updateTimeMap_rep
      (updateTimeMap (updateTimeMap (newCacheTimeMap K) a t0) b t1)
      [(b, t1), (a, t0)] c t2 hrep2
    rw [herc] at h
    exact h
  have herd : eraseKey d [(c, t2), (b, t1), (a, t0)] = [(c, t2), (b, t1), (a, t0)] :=
    eraseKey_of_not_mem d _ (by simp [keysOf, Ne.symm hcd, Ne.symm hbd, Ne.symm had])
  have hrep4 : CtmRep
      (updateTimeMap
        (updateTimeMap (updateTimeMap (updateTimeMap (newCacheTimeMap K) a t0) b t1)
          c t2) d t3) [(d, t3), (c, t2), (b, t1), (a, t0)] := by
    have h := updateTimeMap_rep
      (updateTimeMap (updateTimeMap (updateTimeMap (newCacheTimeMap K) a t0) b t1)
        c t2) [(c, t2), (b, t1), (a, t0)] d t3 hrep3
    rw [herd] at h
    exact h
  -- the eviction performed by the 4th Set
  have hro := removeOldest_rep
    (updateTimeMap
      (updateTimeMap (updateTimeMap (updateTimeMap (newCacheTimeMap K) a t0) b t1)
        c t2) d t3) [(d, t3), (c, t2), (b, t1)] a t0 hrep4
  -- lookups on the 4-entry map
  have hfa3 : GoMap.find?
      (GoMap.insert (GoMap.insert (GoMap.insert ([] : List (K × V)) a va) b vb) c vc)
      a = some va := by
    rw [GoMap.find?_insert_ne _ c a vc hac, GoMap.find?_insert_ne _ b a vb hab]
    exact hf1a
  have hfa4 : GoMap.find?
      (GoMap.insert
        (GoMap.insert (GoMap.insert (GoMap.insert ([] : List (K × V)) a va) b vb)
          c vc) d vd) a = some va := by
    rw [GoMap.find?_insert_ne _ d a vd had]
    exact hfa3
  have hfb4 : GoMap.find?
      (GoMap.insert
        (GoMap.insert (GoMap.insert (GoMap.insert ([] : List (K × V)) a va) b vb)
          c vc) d vd) b = some vb := by
    rw [GoMap.find?_insert_ne _ d b vd hbd, GoMap.find?_insert_ne _ c b vc hbc]
    exact GoMap.find?_insert_self _ b vb
  have hfc4 : GoMap.find?
      (GoMap.insert
        (GoMap.insert (GoMap.insert (GoMap.insert ([] : List (K × V)) a va) b vb)
          c vc) d vd) c = some vc := by
    rw [GoMap.find?_insert_ne _ d c vd hcd]
    exact GoMap.find?_insert_self _ c vc
  have hfd4 : GoMap.find?
      (GoMap.insert
        (GoMap.insert (GoMap.insert (GoMap.insert ([] : List (K × V)) a va) b vb)
          c vc) d vd) d = some vd :=
    GoMap.find?_insert_self _ d vd
  have hsea : GoMap.size
      (GoMap.erase
        (GoMap.insert
          (GoMap.insert (GoMap.insert (GoMap.insert ([] : List (K × V)) a va) b vb)
            c vc) d vd) a) = 3 := by
    have h := GoMap.size_erase_of_mem _ a hwfM4 (by rw [hfa4]; rfl)
    omega
  -- the three no-evict writes and the evicting 4th write
  have h1 : SetLRW (mkLRW K V 3 0) a va t0 =
      { m := GoMap.insert ([] : List (K × V)) a va,
        keys := updateTimeMap (newCacheTimeMap K) a t0,
        maxSize := 3, maxAge := 0 } :=
    SetLRW_noevict (mkLRW K V 3 0) a va t0 hng
      (show ¬((GoMap.size (GoMap.insert ([] : List (K × V)) a va) : Int) > (3 : Int))
        by rw [hs1]; decide)
  have h2 : SetLRW
      { m := GoMap.insert ([] : List (K × V)) a va,
        keys := updateTimeMap (newCacheTimeMap K) a t0,
        maxSize := 3, maxAge := 0 } b vb t1 =
      { m := GoMap.insert (GoMap.insert ([] : List (K × V)) a va) b vb,
        keys := updateTimeMap (updateTimeMap (newCacheTimeMap K) a t0) b t1,
        maxSize := 3, maxAge := 0 } :=
    SetLRW_noevict _ b vb t1 hng
      (show ¬((GoMap.size
          (GoMap.insert (GoMap.insert ([] : List (K × V)) a va) b vb) : Int) >
        (3 : Int)) by rw [hs2]; decide)
  have h3 : SetLRW
      { m := GoMap.insert (GoMap.insert ([] : List (K × V)) a va) b vb,
        keys := updateTimeMap (updateTimeMap (newCacheTimeMap K) a t0) b t1,
        maxSize := 3, maxAge := 0 } c vc t2 =
      { m := GoMap.insert (GoMap.insert (GoMap.insert ([] : List (K × V)) a va) b vb)
          c vc,
        keys := updateTimeMap
          (updateTimeMap (updateTimeMap (newCacheTimeMap K) a t0) b t1) c t2,
        maxSize := 3, maxAge := 0 } :=
    SetLRW_noevict _ c vc t2 hng
      (show ¬((GoMap.size
          (GoMap.insert (GoMap.insert (GoMap.insert ([] : List (K × V)) a va) b vb)
            c vc) : Int) > (3 : Int)) by rw [hs3]; decide)
  have h4 : SetLRW
      { m := GoMap.insert (GoMap.insert (GoMap.insert ([] : List (K × V)) a va) b vb)
          c vc,
        keys := updateTimeMap
          (updateTimeMap (updateTimeMap (newCacheTimeMap K) a t0) b t1) c t2,
        maxSize := 3, maxAge := 0 } d vd t3 =
      { m := GoMap.erase
          (GoMap.insert
            (GoMap.insert
              (GoMap.insert (GoMap.insert ([] : List (K × V)) a va) b vb) c vc) d vd)
          (removeOldest
            (updateTimeMap
              (updateTimeMap
                (updateTimeMap (updateTimeMap (newCacheTimeMap K) a t0) b t1) c t2)
              d t3)).2,
        keys := (removeOldest
          (updateTimeMap
            (updateTimeMap
              (updateTimeMap (updateTimeMap (newCacheTimeMap K) a t0) b t1) c t2)
            d t3)).1,
        maxSize := 3, maxAge := 0 } :=
    SetLRW_evict_one _ d vd t3 hng (show (3 : Int) > (0 : Int) by decide)
      (show 0 < GoMap.size
          (updateTimeMap
            (updateTimeMap
              (updateTimeMap (updateTimeMap (newCacheTimeMap K) a t0) b t1) c t2)
            d t3).m by rw [hrep4.sizeEq]; simp)
      (show (GoMap.size
          (GoMap.insert
            (GoMap.insert
              (GoMap.insert (GoMap.insert ([] : List (K × V)) a va) b vb) c vc)
            d vd) : Int) > (3 : Int) by rw [hs4]; decide)
      (show ¬((GoMap.size
          (GoMap.erase
            (GoMap.insert
              (GoMap.insert
                (GoMap.insert (GoMap.insert ([] : List (K × V)) a va) b vb) c vc)
              d vd)
            (removeOldest
              (updateTimeMap
                (updateTimeMap
                  (updateTimeMap (updateTimeMap (newCacheTimeMap K) a t0) b t1) c t2)
                d t3)).2) : Int) > (3 : Int)) by rw [hro.1, hsea]; decide)
  refine ⟨?_, ?_, ?_, ?_, ?_⟩
  · rw [h1, h2, h3, h4]
    show GoMap.find?
      (GoMap.erase
        (GoMap.insert
          (GoMap.insert (GoMap.insert (GoMap.insert ([] : List (K × V)) a va) b vb)
            c vc) d vd)
        (removeOldest
          (updateTimeMap
            (updateTimeMap
              (updateTimeMap (updateTimeMap (newCacheTimeMap K) a t0) b t1) c t2)
            d t3)).2) a = none
    rw [hro.1]
    exact GoMap.find?_erase_self _ a
  · rw [h1, h2, h3, h4]
    show GoMap.find?
      (GoMap.erase
        (GoMap.insert
          (GoMap.insert (GoMap.insert (GoMap.insert ([] : List (K × V)) a va) b vb)
            c vc) d vd)
        (removeOldest
          (updateTimeMap
            (updateTimeMap
              (updateTimeMap (updateTimeMap (newCacheTimeMap K) a t0) b t1) c t2)
            d t3)).2) b = some vb
    rw [hro.1, GoMap.find?_erase_ne _ a b (Ne.symm hab)]
    exact hfb4
  · rw [h1, h2, h3, h4]
    show GoMap.find?
      (GoMap.erase
        (GoMap.insert
          (GoMap.insert (GoMap.insert (GoMap.insert ([] : List (K × V)) a va) b vb)
            c vc) d vd)
        (removeOldest
          (updateTimeMap
            (updateTimeMap
              (updateTimeMap (updateTimeMap (newCacheTimeMap K) a t0) b t1) c t2)
            d t3)).2) c = some vc
    rw [hro.1, GoMap.find?_erase_ne _ a c (Ne.symm hac)]
    exact hfc4
  · rw [h1, h2, h3, h4]
    show GoMap.find?
      (GoMap.erase
        (GoMap.insert
          (GoMap.insert (GoMap.insert (GoMap.insert ([] : List (K × V)) a va) b vb)
            c vc) d vd)
        (removeOldest
          (updateTimeMap
            (updateTimeMap
              (updateTimeMap (updateTimeMap (newCacheTimeMap K) a t0) b t1) c t2)
            d t3)).2) d = some vd
    rw [hro.1, GoMap.find?_erase_ne _ a d (Ne.symm had)]
    exact hfd4
  · rw [h1, h2, h3]
    exact hfa3

/-- Witness for C8 at a concrete instance. -/
theorem C8_oldest_first_witness :
    (1 : Nat) ≠ 2 ∧ (1 : Nat) ≠ 3 ∧ (1 : Nat) ≠ 4 ∧ (2 : Nat) ≠ 3 ∧
      (2 : Nat) ≠ 4 ∧ (3 : Nat) ≠ 4 ∧
      (GoMap.find?
        (SetLRW (SetLRW (SetLRW (SetLRW (mkLRW Nat Nat 3 0) 1 11 0) 2 22 1) 3 33 2)
          4 44 3).m 1 = none ∧
       GoMap.find?
        (SetLRW (SetLRW (SetLRW (SetLRW (mkLRW Nat Nat 3 0) 1 11 0) 2 22 1) 3 33 2)
          4 44 3).m 2 = some 22 ∧
       GoMap.find?
        (SetLRW (SetLRW (SetLRW (SetLRW (mkLRW Nat Nat 3 0) 1 11 0) 2 22 1) 3 33 2)
          4 44 3).m 3 = some 33 ∧
       GoMap.find?
        (SetLRW (SetLRW (SetLRW (SetLRW (mkLRW Nat Nat 3 0) 1 11 0) 2 22 1) 3 33 2)
          4 44 3).m 4 = some 44 ∧
       GoMap.find?
        (SetLRW (SetLRW (SetLRW (mkLRW Nat Nat 3 0) 1 11 0) 2 22 1) 3 33 2).m 1 =
        some 11) :=
  ⟨by decide, by decide, by decide, by decide, by decide, by decide,
   C8_oldest_first Nat Nat 1 2 3 4 11 22 33 44 0 1 2 3 (by decide) (by decide)
     (by decide) (by decide) (by decide) (by decide)⟩

end Goutils
